import Mathlib

/-!
Verification of the filesystem-backed JSON record store in `src/lib/db.js`
(`JSONCollection` and its helpers).

The JavaScript code is shallowly embedded: JavaScript values are the inductive
type `Val` (with `null` and `undefined` kept distinct), JavaScript objects are
insertion-ordered association lists `Obj := List (String × Val)`, JavaScript
`Map`s and `Set`s are insertion-ordered association lists / duplicate-free
lists, and each mutating collection operation is a state-passing function
returning both the operation's outcome and the post-state.  A thrown
`DatabaseError` is an `Except.error` outcome; since a JavaScript `throw`
does not roll back in-place mutations already performed, every operation
returns the (possibly partially mutated) post-state alongside the error.

Modelling notes, applying to the whole file:
* Strict equality (`===`) and `Map`/`Set` key equality are modelled as
  structural equality on `Val`.  In JavaScript both degenerate to reference
  equality on objects and differ on `NaN`; the records, indexed values and
  queries exercised by the specification's claims are primitive-valued, where
  structural equality and `===`/SameValueZero agree (`Val` numbers are `Int`,
  so `NaN` does not arise).
* Nondeterministic inputs of the code — `new Date().toISOString()` and
  `uuidv4()` — are passed in as explicit arguments (`now`, `freshId`).
* The optional Zod schema is passed as an explicit `validator` function with
  the same parse-or-fail contract (`safeParse`); "no schema configured" is the
  always-succeeding identity validator `okValidator`.
* `clone` (a `JSON.parse(JSON.stringify _)` defensive copy) is the identity in
  a pure model and is not represented.
* Disk persistence (`_persist`) does not change the in-memory state and is
  not represented in the state-passing operations; serialization itself
  (`stableStringify`) and loading (`readJSON` / `_ensureLoaded`) are modelled
  separately.
-/

/-- JavaScript values as stored in records: `null`, `undefined`, booleans,
numbers (restricted to integers — the record fields exercised here are ids,
strings and integers, so IEEE-754 specifics never matter), strings, objects
(insertion-ordered field list) and arrays. -/
inductive Val where
  | vNull
  | vUndef
  | vBool (b : Bool)
  | vInt (n : Int)
  | vStr (s : String)
  | vObj (fields : List (String × Val))
  | vArr (elems : List Val)
deriving Repr

mutual

/-- Structural decidable equality on `Val` (the nested inductive defeats the
`DecidableEq` deriving handler, so it is spelled out). -/
def Val.decEq : (a b : Val) → Decidable (a = b)
  | .vNull, .vNull => .isTrue rfl
  | .vUndef, .vUndef => .isTrue rfl
  | .vBool x, .vBool y =>
      if h : x = y then .isTrue (by rw [h]) else .isFalse (by simp [h])
  | .vInt x, .vInt y =>
      if h : x = y then .isTrue (by rw [h]) else .isFalse (by simp [h])
  | .vStr x, .vStr y =>
      if h : x = y then .isTrue (by rw [h]) else .isFalse (by simp [h])
  | .vObj f, .vObj g =>
      match Val.decEqFields f g with
      | .isTrue h => .isTrue (by rw [h])
      | .isFalse h => .isFalse (by simp [h])
  | .vArr f, .vArr g =>
      match Val.decEqElems f g with
      | .isTrue h => .isTrue (by rw [h])
      | .isFalse h => .isFalse (by simp [h])
  | .vNull, .vUndef | .vNull, .vBool _ | .vNull, .vInt _ | .vNull, .vStr _ | .vNull, .vObj _ | .vNull, .vArr _ => .isFalse nofun
  | .vUndef, .vNull | .vUndef, .vBool _ | .vUndef, .vInt _ | .vUndef, .vStr _ | .vUndef, .vObj _ | .vUndef, .vArr _ => .isFalse nofun
  | .vBool _, .vNull | .vBool _, .vUndef | .vBool _, .vInt _ | .vBool _, .vStr _ | .vBool _, .vObj _ | .vBool _, .vArr _ => .isFalse nofun
  | .vInt _, .vNull | .vInt _, .vUndef | .vInt _, .vBool _ | .vInt _, .vStr _ | .vInt _, .vObj _ | .vInt _, .vArr _ => .isFalse nofun
  | .vStr _, .vNull | .vStr _, .vUndef | .vStr _, .vBool _ | .vStr _, .vInt _ | .vStr _, .vObj _ | .vStr _, .vArr _ => .isFalse nofun
  | .vObj _, .vNull | .vObj _, .vUndef | .vObj _, .vBool _ | .vObj _, .vInt _ | .vObj _, .vStr _ | .vObj _, .vArr _ => .isFalse nofun
  | .vArr _, .vNull | .vArr _, .vUndef | .vArr _, .vBool _ | .vArr _, .vInt _ | .vArr _, .vStr _ | .vArr _, .vObj _ => .isFalse nofun

/-- Decidable equality of object field lists. -/
def Val.decEqFields : (a b : List (String × Val)) → Decidable (a = b)
  | [], [] => .isTrue rfl
  | [], _ :: _ => .isFalse nofun
  | _ :: _, [] => .isFalse nofun
  | (k, v) :: xs, (k2, v2) :: ys =>
      have : Decidable (v = v2) := Val.decEq v v2
      have : Decidable (xs = ys) := Val.decEqFields xs ys
      decidable_of_iff (k = k2 ∧ v = v2 ∧ xs = ys) (by simp [and_assoc])

/-- Decidable equality of array element lists. -/
def Val.decEqElems : (a b : List Val) → Decidable (a = b)
  | [], [] => .isTrue rfl
  | [], _ :: _ => .isFalse nofun
  | _ :: _, [] => .isFalse nofun
  | v :: xs, v2 :: ys =>
      have : Decidable (v = v2) := Val.decEq v v2
      have : Decidable (xs = ys) := Val.decEqElems xs ys
      decidable_of_iff (v = v2 ∧ xs = ys) (by simp)

end

instance : DecidableEq Val := Val.decEq

/-- JavaScript loose `x == null`, true exactly for `null` and `undefined`. -/
def isNullish : Val → Bool
  | .vNull => true
  | .vUndef => true
  | _ => false

/-- JavaScript truthiness of a value (`undefined`, `null`, `false`, `0` and
`""` are falsy; objects and arrays are always truthy). -/
def truthy : Val → Bool
  | .vNull => false
  | .vUndef => false
  | .vBool b => b
  | .vInt n => n != 0
  | .vStr s => s != ""
  | .vObj _ => true
  | .vArr _ => true

/-- Insertion-ordered association list, the model of a JavaScript `Map`
(and, specialized to `String` keys, of a plain object's own properties). -/
abbrev JMap (α β : Type) := List (α × β)

/-- `Map.get` / property read: the value at the first matching key. -/
def aget [DecidableEq α] : JMap α β → α → Option β
  | [], _ => none
  | (k, v) :: rest, key => if k = key then some v else aget rest key

/-- `Map.set` / property write: replace in place if the key is present,
otherwise append (JavaScript keeps insertion order). -/
def aset [DecidableEq α] : JMap α β → α → β → JMap α β
  | [], key, v => [(key, v)]
  | (k, w) :: rest, key, v =>
      if k = key then (key, v) :: rest else (k, w) :: aset rest key v

/-- `Map.delete`: drop the entry with the given key. -/
def adel [DecidableEq α] (m : JMap α β) (key : α) : JMap α β :=
  m.filter (fun kv => kv.1 ≠ key)

/-- `Set.add`: append if not already a member (JavaScript keeps insertion
order and never duplicates). -/
def sadd [DecidableEq α] (s : List α) (x : α) : List α :=
  if s.contains x then s else s ++ [x]

/-- `Set.delete`: drop the element. -/
def sdel [DecidableEq α] (s : List α) (x : α) : List α :=
  s.filter (fun y => y ≠ x)

/-- JavaScript object (a record): insertion-ordered list of fields. -/
abbrev Obj := JMap String Val

/-- Property read `obj[k]`, `undefined` when absent. -/
def oget (o : Obj) (key : String) : Val := ((aget o key).getD .vUndef)

/-- Own-property test `k in obj` (`Object.keys(obj).includes(k)`). -/
def hasKey (o : Obj) (key : String) : Bool := (aget o key).isSome

/-- Spread merge `{...a, ...b}`: keys of `a` keep their position (taking `b`'s
value when `b` also has the key), then keys only in `b` follow in `b`'s
order. -/
def omerge (a b : Obj) : Obj :=
  a.map (fun kv => match aget b kv.1 with | some w => (kv.1, w) | none => kv)
    ++ b.filter (fun kv => ¬ hasKey a kv.1)

/-- Property read on an arbitrary value, as used by the dot-path walk:
objects by key, arrays by numeric index, anything else `undefined`
(exotic built-in properties such as `length` are outside the model). -/
def vget : Val → String → Val
  | .vObj fields, key => oget fields key
  | .vArr elems, key =>
      match key.toNat? with
      | some i => (elems.get? i).getD .vUndef
      | none => .vUndef
  | _, _ => (.vUndef)

/-- Walk of `getByPath`'s loop: `for (const p of parts) { if (cur == null)
return undefined; cur = cur[p]; }` then `return cur`. -/
def getByPathWalk : Val → List String → Val
  | v, [] => v
  | v, p :: ps => if isNullish v then .vUndef else getByPathWalk (vget v p) ps

/-- `dotPath.split('.')` on the character list: splitting at every `'.'`
(`String.prototype.split` with a one-character separator — each separator
occurrence ends a piece, so leading, trailing and doubled dots yield empty
pieces, and the empty string yields `[""]`). -/
def splitDotChars : List Char → List (List Char)
  | [] => [[]]
  | c :: cs =>
    match splitDotChars cs with
    | [] => [[]]
    | p :: ps => if c = '.' then [] :: p :: ps else (c :: p) :: ps

/-- `dotPath.split('.')`. -/
def jsSplitDot (s : String) : List String :=
  (splitDotChars s.data).map (fun cs => ⟨cs⟩)

/-- `getByPath(obj, dotPath)` from `db.js`: deep get by dot-path; a falsy
(empty) path yields `undefined`. -/
def getByPath (obj : Obj) (dotPath : String) : Val :=
  if dotPath = "" then .vUndef
  else getByPathWalk (.vObj obj) (jsSplitDot dotPath)

/-- `matchesQuery(rec, query)` from `db.js`: every queried field must equal
the record's value at that dot-path under strict equality. -/
def matchesQuery (rec : Obj) (query : Obj) : Bool :=
  query.all (fun kv => getByPath rec kv.1 = kv.2)

/-- One index definition: `{ field, unique }` (after `normalizeIndexes`). -/
structure IndexDef where
  field : String
  unique : Bool
deriving DecidableEq, Repr

/-- `DatabaseError` kinds thrown by `db.js` (`code` property, or the
code-less constructor/argument errors). -/
inductive DBErr where
  | invalidArgument (msg : String)
  | validation (msg : String)
  | primaryDup (id : Val)
  | primaryImmutable
  | notFound (id : Val)
  | indexUnique (field : String) (value : Val)
deriving DecidableEq, Repr

/-- The `_indexes` structure: field → (value → insertion-ordered set of
primary keys). -/
abbrev Indexes := JMap String (JMap Val (List Val))

/-- Freshly cleared index maps, one empty value-map per defined field in
definition order (`_rebuildIndexes`'s first loop; the constructor builds the
same shape). -/
def emptyIndexes (defs : List IndexDef) : Indexes :=
  defs.map (fun d => (d.field, []))

/-- `_indexInsert(rec)`: walk the index definitions in declaration order; for
each, skip when the record's value at the field path is `undefined` or its
primary key is nullish, otherwise add the primary key to the value's key-set,
throwing a unique violation if the (non-empty) set does not already hold this
key.  A throw keeps the mutations of the fields already processed — the
returned `Indexes` is the partially updated structure. -/
def indexInsertGo (pk : String) (rec : Obj) : List IndexDef → Indexes → Option DBErr × Indexes
  | [], idx => (none, idx)
  | d :: ds, idx =>
    let value := getByPath rec d.field
    let id := oget rec pk
    if value = Val.vUndef ∨ isNullish id then
      indexInsertGo pk rec ds idx
    else
      let m := (aget idx d.field).getD []
      let s := (aget m value).getD []
      if d.unique ∧ s ≠ [] ∧ ¬ s.contains id then
        (some (.indexUnique d.field value), idx)
      else
        indexInsertGo pk rec ds (aset idx d.field (aset m value (sadd s id)))

/-- `_indexRemove(rec)`: drop the record's primary key from each indexed
field's entry for the record's current value, deleting entries whose key-set
becomes empty.  Never throws. -/
def indexRemoveGo (pk : String) (rec : Obj) : List IndexDef → Indexes → Indexes
  | [], idx => idx
  | d :: ds, idx =>
    let value := getByPath rec d.field
    let id := oget rec pk
    if value = Val.vUndef ∨ isNullish id then
      indexRemoveGo pk rec ds idx
    else
      let m := (aget idx d.field).getD []
      match aget m value with
      | none => indexRemoveGo pk rec ds idx
      | some s =>
        let s2 := sdel s id
        let m2 := if s2 = [] then adel m value else aset m value s2
        indexRemoveGo pk rec ds (aset idx d.field m2)

/-- The `setOld` block of `_indexUpdate`: drop `id` from the key-set of
`value` when an entry exists, deleting the entry if its set becomes empty
(in-place on the field's value-map). -/
def removeFromValueMap (m : JMap Val (List Val)) (value : Val) (id : Val) : JMap Val (List Val) :=
  match aget m value with
  | some s =>
    let s2 := sdel s id
    if s2 = [] then adel m value else aset m value s2
  | none => m

/-- `_indexUpdate(oldRec, newRec)`: for each indexed field whose value
changed, move the (new record's) primary key from the old value's key-set to
the new value's, with the unique check on the destination set.  On a unique
violation the old-value removal for that field (and all mutations of earlier
fields) are already applied — the returned `Indexes` keeps them. -/
def indexUpdateGo (pk : String) (oldRec newRec : Obj) : List IndexDef → Indexes → Option DBErr × Indexes
  | [], idx => (none, idx)
  | d :: ds, idx =>
    let oldVal := getByPath oldRec d.field
    let newVal := getByPath newRec d.field
    if oldVal = newVal then indexUpdateGo pk oldRec newRec ds idx
    else
      let id := oget newRec pk
      let m := (aget idx d.field).getD []
      let m1 := if oldVal ≠ Val.vUndef then removeFromValueMap m oldVal id else m
      if newVal ≠ Val.vUndef then
        let s := (aget m1 newVal).getD []
        if d.unique ∧ s ≠ [] ∧ ¬ s.contains id then
          (some (.indexUnique d.field newVal), aset idx d.field m1)
        else
          indexUpdateGo pk oldRec newRec ds (aset idx d.field (aset m1 newVal (sadd s id)))
      else
        indexUpdateGo pk oldRec newRec ds (aset idx d.field m1)

/-- Reinsertion loop of `_rebuildIndexes`: insert every record in order,
stopping at (and keeping the partial mutations of) the first failure. -/
def rebuildGo (pk : String) (defs : List IndexDef) : List Obj → Indexes → Option DBErr × Indexes
  | [], idx => (none, idx)
  | r :: rs, idx =>
    match indexInsertGo pk r defs idx with
    | (some e, idx2) => (some e, idx2)
    | (none, idx2) => rebuildGo pk defs rs idx2

/-- `_rebuildIndexes()`: clear every field's map, then reinsert every record
of the data array. -/
def rebuildIndexes (pk : String) (defs : List IndexDef) (data : List Obj) : Option DBErr × Indexes :=
  rebuildGo pk defs data (emptyIndexes defs)

/-- In-memory state of a `JSONCollection` (after loading): configuration plus
`_data`, `_byId` and `_indexes`. -/
structure Coll where
  primaryKey : String
  indexDefs : List IndexDef
  data : List Obj
  byId : JMap Val Obj
  indexes : Indexes
deriving DecidableEq, Repr

/-- Schema validation hook with Zod's `safeParse` contract: success returns
the (possibly transformed) parsed record, failure the joined issue
messages. -/
abbrev Validator := Obj → Except String Obj

/-- The validator of a collection with no schema configured: every record
passes unchanged. -/
def okValidator : Validator := fun r => .ok r

/-- `create(record)`: validate the input (before ids are assigned), default a
missing primary key to the fresh uuid and a missing `createdAt` to now,
always stamp `updatedAt`, reject a duplicate primary key, run the index
insert (which may throw, keeping its partial index mutations), then append to
the record array and the primary-key map. -/
def createOp (validator : Validator) (now : String) (freshId : Val) (record : Obj) (c : Coll) :
    Except DBErr Obj × Coll :=
  match validator record with
  | .error issues => (.error (.validation issues), c)
  | .ok rec0 =>
    let rec1 := if isNullish (oget rec0 c.primaryKey) then aset rec0 c.primaryKey freshId else rec0
    let rec2 := if isNullish (oget rec1 "createdAt") then aset rec1 "createdAt" (.vStr now) else rec1
    let rec3 := aset rec2 "updatedAt" (.vStr now)
    let id := oget rec3 c.primaryKey
    if (aget c.byId id).isSome then
      (.error (.primaryDup id), c)
    else
      match indexInsertGo c.primaryKey rec3 c.indexDefs c.indexes with
      | (some e, idx2) => (.error e, { c with indexes := idx2 })
      | (none, idx2) =>
        (.ok rec3,
         { c with data := c.data ++ [rec3], byId := aset c.byId id rec3, indexes := idx2 })

/-- `read(id)`: primary-key map lookup, `null` (`none`) when absent. -/
def readOp (id : Val) (c : Coll) : Option Obj := aget c.byId id

/-- Options of `findMany`: `{ sortBy, sortDir = 'asc', offset = 0, limit }`.
`offset` and `limit` are modelled as naturals (the route callers always pass
non-negative integers; `typeof limit === 'number'` failing is `none`). -/
structure FindOpts where
  sortBy : Option String := none
  sortDir : String := "asc"
  offset : Nat := 0
  limit : Option Nat := none
deriving DecidableEq, Repr

/-- Result shape of `findMany`: the page, the total match count, and the
echoed offset/limit (`limit` is `null` when none was given). -/
structure FindResult where
  items : List Obj
  total : Nat
  offset : Nat
  limit : Option Nat
deriving DecidableEq, Repr

/-- JavaScript `<` restricted to same-type primitive comparisons (numbers and
strings — the only field types the store sorts on; cross-type coercion is
outside the model and compares as neither smaller nor greater).  String
comparison is lexicographic by code unit, i.e. `<` on the character lists. -/
def jsLt : Val → Val → Bool
  | .vInt a, .vInt b => a < b
  | .vStr a, .vStr b => a.data < b.data
  | _, _ => false

/-- The sort comparator of `findMany`: nullish values sort before present
values (direction-adjusted), otherwise ordinary `<` / `>` comparison. -/
def sortCompare (sortBy : String) (dir : Int) (a b : Obj) : Int :=
  let av := getByPath a sortBy
  let bv := getByPath b sortBy
  if isNullish av ∧ isNullish bv then 0
  else if isNullish av then -1 * dir
  else if isNullish bv then 1 * dir
  else if jsLt av bv then -1 * dir
  else if jsLt bv av then 1 * dir
  else 0

/-- `String.prototype.toLowerCase` on the ASCII direction strings the store
compares (`'desc'`): characterwise lower-casing. -/
def jsToLower (s : String) : String := ⟨s.data.map Char.toLower⟩

/-- `limit || null` as the empty-index early return of `findMany` echoes the
limit: a falsy limit (`0`, or a non-number modelled as `none`) collapses to
`null`. -/
def jsLimitOrNull : Option Nat → Option Nat
  | some l => if l = 0 then none else some l
  | none => none

/-- `findMany(query, options)`: pick the first queried field that has an
index; if one exists, candidates are the records found through that index's
key-set for the queried value (an absent or empty key-set short-circuits to
an empty result whose `limit` echo is `limit || null`), otherwise the whole
data array.  Then the residual `matchesQuery` filter, the optional stable
sort, and offset/limit slicing; `total` is the count before slicing; the
final return echoes `typeof limit === 'number' ? limit : null`, i.e. the
limit as given. -/
def findMany (c : Coll) (query : Obj) (options : FindOpts) : FindResult :=
  let indexedField :=
    (query.map Prod.fst).find? (fun f => (c.indexDefs.map IndexDef.field).contains f)
  let candidates : Option (List Obj) :=
    match indexedField with
    | some f =>
      let val := oget query f
      match aget ((aget c.indexes f).getD []) val with
      | none => none
      | some ids =>
        if ids = [] then none
        else some ((ids.map (fun id => aget c.byId id)).reduceOption)
    | none => some c.data
  match candidates with
  | none =>
    { items := [], total := 0, offset := options.offset,
      limit := jsLimitOrNull options.limit }
  | some cands =>
    let filtered := cands.filter (fun r => matchesQuery r query)
    let sorted :=
      match options.sortBy with
      | none => filtered
      | some sb =>
        let dir : Int := if jsToLower options.sortDir = "desc" then -1 else 1
        filtered.mergeSort (fun a b => sortCompare sb dir a b ≤ 0)
    let total := sorted.length
    let sliced :=
      match options.limit with
      | some l => (sorted.drop options.offset).take l
      | none => sorted.drop options.offset
    { items := sliced, total := total, offset := options.offset, limit := options.limit }

/-- `findOne(query)`: first item of `findMany(query, { limit: 1 })`, `null`
(`none`) when there is no match. -/
def findOneOp (c : Coll) (query : Obj) : Option Obj :=
  (findMany c query { limit := some 1 }).items.head?

/-- `update(id, patch)`: not-found check, the primary-key immutability guard
(note the guard only fires for a *truthy* differing patch value — the `&&`
short-circuit in `patch[this.primaryKey] && patch[this.primaryKey] !== id`),
merge, re-validation (whose parse output the code discards), index update
(which may throw, keeping its partial mutations), then in-place commit.

`Object.assign(existing, next)` mutates the record object shared by `_data`
and `_byId`; in the pure model the shared reference is the record bearing
primary key `id` (the `_byId` entry under `id` and the data entries whose
primary-key field equals `id`), which is exactly the aliasing of every state
reachable with distinct primary keys. -/
def updateOp (validator : Validator) (now : String) (id : Val) (patch : Obj) (c : Coll) :
    Except DBErr Obj × Coll :=
  match aget c.byId id with
  | none => (.error (.notFound id), c)
  | some existing =>
    if truthy (oget patch c.primaryKey) ∧ oget patch c.primaryKey ≠ id then
      (.error .primaryImmutable, c)
    else
      let next := aset (omerge existing patch) "updatedAt" (.vStr now)
      match validator next with
      | .error issues => (.error (.validation issues), c)
      | .ok _ =>
        match indexUpdateGo c.primaryKey existing next c.indexDefs c.indexes with
        | (some e, idx2) => (.error e, { c with indexes := idx2 })
        | (none, idx2) =>
          let committed := omerge existing next
          (.ok committed,
           { c with
             data := c.data.map (fun r => if oget r c.primaryKey = id then committed else r),
             byId := c.byId.map (fun kv => if kv.1 = id then (kv.1, committed) else kv),
             indexes := idx2 })

/-- `remove(id)`: boolean found/not-found; on found, index removal, then the
record is filtered out of the data array and deleted from the primary-key
map. -/
def removeOp (id : Val) (c : Coll) : Bool × Coll :=
  match aget c.byId id with
  | none => (false, c)
  | some existing =>
    (true,
     { c with
       data := c.data.filter (fun r => oget r c.primaryKey ≠ id),
       byId := adel c.byId id,
       indexes := indexRemoveGo c.primaryKey existing c.indexDefs c.indexes })

/-- `upsert(query, payload)`: `findOne` then either `update` of the found
record's primary key or `create` of `{...query, ...payload}`. -/
def upsertOp (validator : Validator) (now : String) (freshId : Val) (query payload : Obj)
    (c : Coll) : Except DBErr Obj × Coll :=
  match findOneOp c query with
  | some found => updateOp validator now (oget found c.primaryKey) payload c
  | none => createOp validator now freshId (omerge query payload) c

/-- Normalization of one incoming record in `replaceAll`: default a missing
primary key / `createdAt` / `updatedAt`, then validate (the parsed result
replaces the record). -/
def normalizeRecord (validator : Validator) (now : String) (pk : String) (freshId : Val)
    (r : Obj) : Except DBErr Obj :=
  let r1 := if isNullish (oget r pk) then aset r pk freshId else r
  let r2 := if isNullish (oget r1 "createdAt") then aset r1 "createdAt" (.vStr now) else r1
  let r3 := if isNullish (oget r2 "updatedAt") then aset r2 "updatedAt" (.vStr now) else r2
  match validator r3 with
  | .error issues => .error (.validation issues)
  | .ok r4 => .ok r4

/-- `records.map(normalize)` with fail-fast: the first validation failure
aborts the whole call (before any state mutation).  `fresh i` supplies the
uuid drawn for the `i`-th record (used only when its primary key is
missing). -/
def normalizeAll (validator : Validator) (now : String) (pk : String) (fresh : Nat → Val) :
    Nat → List Obj → Except DBErr (List Obj)
  | _, [] => .ok []
  | i, r :: rs =>
    match normalizeRecord validator now pk (fresh i) r with
    | .error e => .error e
    | .ok r2 =>
      match normalizeAll validator now pk fresh (i + 1) rs with
      | .error e => .error e
      | .ok rest => .ok (r2 :: rest)

/-- Duplicate-check loop of `replaceAll`: build the new primary-key map,
failing on the first duplicate within the new set (still before any state
mutation). -/
def buildById (pk : String) : List Obj → JMap Val Obj → Except DBErr (JMap Val Obj)
  | [], acc => .ok acc
  | r :: rs, acc =>
    let id := oget r pk
    if (aget acc id).isSome then .error (.primaryDup id)
    else buildById pk rs (aset acc id r)

/-- Element copy `{...r}` performed by `replaceAll` on each incoming element
(spreading a non-object primitive yields an empty object; the character
spread of strings is outside the model). -/
def spreadToObj : Val → Obj
  | .vObj fields => fields
  | _ => []

/-- `replaceAll(records)`: non-array rejection, validation/normalization and
the duplicate-primary-key check on local structures (state untouched on those
failures), then the in-memory swap `_data = normalized; _byId = byId;
_rebuildIndexes()` — the rebuild runs *after* the swap, so a unique-index
violation raised during it leaves the new data installed with partially
rebuilt indexes. -/
def replaceAllOp (validator : Validator) (now : String) (fresh : Nat → Val) (records : Val)
    (c : Coll) : Except DBErr Unit × Coll :=
  match records with
  | .vArr elems =>
    match normalizeAll validator now c.primaryKey fresh 0 (elems.map spreadToObj) with
    | .error e => (.error e, c)
    | .ok normalized =>
      match buildById c.primaryKey normalized [] with
      | .error e => (.error e, c)
      | .ok newById =>
        match rebuildIndexes c.primaryKey c.indexDefs normalized with
        | (some e, idx2) =>
          (.error e, { c with data := normalized, byId := newById, indexes := idx2 })
        | (none, idx2) =>
          (.ok (), { c with data := normalized, byId := newById, indexes := idx2 })
  | _ => (.error (.invalidArgument "replaceAll expects an array"), c)

/-- Load-time failures: `JSON.parse` syntax errors and non-`ENOENT` read
errors propagate unmodified; a parsed non-array is the Corrupt-Store
`DatabaseError`. -/
inductive LoadErr where
  | corrupt (collection : String)
  | parseError (msg : String)
  | ioError (msg : String)
deriving DecidableEq, Repr

/-- Outcome of `fs.readFile` on the backing file: absent (`ENOENT` /
`ENOTDIR`), some other I/O failure, or the file's text content. -/
inductive FileContent where
  | absent
  | ioFailure (msg : String)
  | content (s : String)
deriving DecidableEq, Repr

/-- The characters `String.prototype.trim` strips: ECMAScript WhiteSpace
(tab, vertical tab, form feed, space, no-break space, the zero-width no-break
space U+FEFF, and the Unicode space separators U+1680, U+2000..U+200A,
U+202F, U+205F, U+3000) together with the LineTerminators (LF, CR, U+2028,
U+2029). -/
def jsWhitespace (c : Char) : Bool :=
  c.toNat = 0x9 || c.toNat = 0xa || c.toNat = 0xb || c.toNat = 0xc || c.toNat = 0xd ||
  c.toNat = 0x20 || c.toNat = 0xa0 || c.toNat = 0x1680 ||
  (0x2000 ≤ c.toNat && c.toNat ≤ 0x200a) ||
  c.toNat = 0x2028 || c.toNat = 0x2029 || c.toNat = 0x202f ||
  c.toNat = 0x205f || c.toNat = 0x3000 || c.toNat = 0xfeff

/-- `readJSON(filePath, fallback)`: the fallback on a missing file or on
blank content (`!buf || buf.trim().length === 0` — the buffer is empty or
every character is one JavaScript `trim` strips), otherwise `JSON.parse`
(whose failure propagates); non-missing read errors propagate. `parse`
stands for the platform `JSON.parse`. -/
def readJSONFile (parse : String → Except String Val) (file : FileContent) (fallback : Val) :
    Except LoadErr Val :=
  match file with
  | .absent => .ok fallback
  | .ioFailure msg => .error (.ioError msg)
  | .content s =>
    if s.data.all jsWhitespace then .ok fallback
    else
      match parse s with
      | .ok v => .ok v
      | .error msg => .error (.parseError msg)

/-- `_ensureLoaded`'s read phase: `readJSON(path, [])`, then the
`Array.isArray` check throwing Corrupt-Store.  Returns the loaded data array
(the subsequent `_byId` build and index rebuild consume it; an empty array
yields an empty collection). -/
def ensureLoaded (parse : String → Except String Val) (name : String) (file : FileContent) :
    Except LoadErr (List Val) :=
  match readJSONFile parse file (.vArr []) with
  | .error e => .error e
  | .ok (.vArr elems) => .ok elems
  | .ok _ => .error (.corrupt name)

/-- JSON string quoting as `JSON.stringify` emits it: escape the quote, the
backslash, the common control escapes, and other control characters as
`\u00XX`. -/
def escapeChar (ch : Char) : String :=
  if ch = '"' then "\\\""
  else if ch = '\\' then "\\\\"
  else if ch = '\n' then "\\n"
  else if ch = '\t' then "\\t"
  else if ch = '\r' then "\\r"
  else if ch = '\x08' then "\\b"
  else if ch = '\x0c' then "\\f"
  else if ch.toNat < 32 then
    "\\u00" ++ (if ch.toNat < 16 then "0" else "") ++ (Nat.toDigits 16 ch.toNat).asString
  else String.singleton ch

/-- Quoted JSON string literal. -/
def quoteString (s : String) : String :=
  "\"" ++ String.join (s.toList.map escapeChar) ++ "\""

/-- Two-space indentation at nesting depth `d` (`atomicWriteJSON` serializes
with `space = 2`). -/
def indentStr (d : Nat) : String := String.join (List.replicate d "  ")

mutual

/-- `stableStringify`'s rendering (i.e. `JSON.stringify(value, replacer, 2)`
where the replacer replaces every object by a copy with sorted keys): objects
render their members in sorted key order, dropping `undefined`-valued
members; arrays render elements in order with `undefined` as `null`.  Cycles
(`'[Circular]'`) cannot arise in an inductive value.  Key sorting compares
Lean strings, which agrees with JavaScript's default sort for the ASCII keys
the store persists. -/
def jsonRender : Val → Nat → String
  | .vNull, _ => "null"
  | .vUndef, _ => "null"
  | .vBool b, _ => if b then "true" else "false"
  | .vInt n, _ => toString n
  | .vStr s, _ => quoteString s
  | .vObj fields, d =>
    let rendered := jsonRenderFields fields (d + 1)
    let keys := (rendered.map Prod.fst).mergeSort (fun a b => decide (a ≤ b))
    let members := keys.filterMap (fun k =>
      match aget rendered k with
      | some (some s) => some (indentStr (d + 1) ++ quoteString k ++ ": " ++ s)
      | _ => none)
    if members.isEmpty then "\x7b\x7d"
    else "\x7b\n" ++ String.intercalate ",\n" members ++ "\n" ++ indentStr d ++ "\x7d"
  | .vArr elems, d =>
    let rendered := jsonRenderElems elems (d + 1)
    if rendered.isEmpty then "[]"
    else
      "[\n" ++ String.intercalate ",\n" (rendered.map (fun s => indentStr (d + 1) ++ s))
        ++ "\n" ++ indentStr d ++ "]"

/-- Members of an object: each key paired with its rendered value, `none` for
`undefined`-valued members (which `JSON.stringify` drops). -/
def jsonRenderFields : List (String × Val) → Nat → List (String × Option String)
  | [], _ => []
  | (k, v) :: rest, d =>
    (k, match v with
        | .vUndef => none
        | w => some (jsonRender w d)) :: jsonRenderFields rest d

/-- Elements of an array, each rendered. -/
def jsonRenderElems : List Val → Nat → List String
  | [], _ => []
  | v :: rest, d => jsonRender v d :: jsonRenderElems rest d

end

/-- `stableStringify(value, 2)` as used by `atomicWriteJSON` for `persist`. -/
def stableStringify (value : Val) : String := jsonRender value 0

mutual

/-- Structural-value equality of JavaScript values regardless of object key
insertion order: primitives by equality, arrays elementwise, objects as
finite maps (duplicate-free key lists, the same key set, and pointwise
equivalent values). -/
def valEquiv : Val → Val → Bool
  | .vNull, .vNull => true
  | .vUndef, .vUndef => true
  | .vBool a, .vBool b => a = b
  | .vInt a, .vInt b => a = b
  | .vStr a, .vStr b => a = b
  | .vObj f, .vObj g =>
    decide ((f.map Prod.fst).Nodup) && decide ((g.map Prod.fst).Nodup)
      && g.all (fun kv => hasKey f kv.1) && valEquivFields f g
  | .vArr a, .vArr b => valEquivElems a b
  | _, _ => false

/-- Every field of the first object is present and pointwise equivalent in
the second. -/
def valEquivFields : List (String × Val) → Obj → Bool
  | [], _ => true
  | (k, v) :: rest, g =>
    (match aget g k with
     | some w => valEquiv v w
     | none => false) && valEquivFields rest g

/-- Elementwise equivalence of array element lists. -/
def valEquivElems : List Val → List Val → Bool
  | [], [] => true
  | v :: xs, w :: ys => valEquiv v w && valEquivElems xs ys
  | _, _ => false

end

/-! ## Basic lemmas about the JavaScript `Map`/`Set`/object embedding -/

theorem aget_aset_self [DecidableEq α] (m : JMap α β) (k : α) (v : β) :
    aget (aset m k v) k = some v := by
  induction m with
  | nil => simp [aset, aget]
  | cons kv rest ih =>
    by_cases h : kv.1 = k
    · simp [aset, h, aget]
    · simpa [aset, h, aget, Ne.symm h] using ih

theorem aget_aset_ne [DecidableEq α] (m : JMap α β) (k k2 : α) (v : β) (h : k2 ≠ k) :
    aget (aset m k v) k2 = aget m k2 := by
  induction m with
  | nil => simp [aset, aget, Ne.symm h]
  | cons kv rest ih =>
    obtain ⟨k1, w⟩ := kv
    by_cases hk : k1 = k
    · subst hk
      simp [aset, aget, Ne.symm h]
    · by_cases hk2 : k1 = k2
      · subst hk2
        simp [aset, aget, hk]
      · simp [aset, aget, hk, hk2, ih]

theorem aget_aset [DecidableEq α] (m : JMap α β) (k k2 : α) (v : β) :
    aget (aset m k v) k2 = if k2 = k then some v else aget m k2 := by
  by_cases h : k2 = k
  · subst h; simp [aget_aset_self]
  · simp [h, aget_aset_ne m k k2 v h]

theorem aget_adel [DecidableEq α] (m : JMap α β) (k k2 : α) :
    aget (adel m k) k2 = if k2 = k then none else aget m k2 := by
  induction m with
  | nil => simp [adel, aget]
  | cons kv rest ih =>
    by_cases hk : kv.1 = k
    · subst hk
      by_cases h2 : k2 = kv.1
      · subst h2; simpa [adel, aget] using ih
      · simpa [adel, aget, h2, Ne.symm h2] using ih
    · by_cases h2 : kv.1 = k2
      · subst h2
        simp [adel, aget, hk, Ne.symm hk]
      · simpa [adel, aget, hk, h2] using ih

theorem mem_sadd [DecidableEq α] (s : List α) (x y : α) :
    x ∈ sadd s y ↔ x ∈ s ∨ x = y := by
  by_cases hy : y ∈ s
  · rw [sadd, if_pos (by simpa using hy)]
    constructor
    · exact Or.inl
    · rintro (hx | rfl)
      · exact hx
      · exact hy
  · rw [sadd, if_neg (by simpa using hy)]
    simp [List.mem_append]

theorem mem_sdel [DecidableEq α] (s : List α) (x y : α) :
    x ∈ sdel s y ↔ x ∈ s ∧ x ≠ y := by
  simp [sdel, List.mem_filter]

theorem sadd_nodup [DecidableEq α] (s : List α) (x : α) (h : s.Nodup) :
    (sadd s x).Nodup := by
  by_cases hx : x ∈ s
  · rwa [sadd, if_pos (by simpa using hx)]
  · rw [sadd, if_neg (by simpa using hx)]
    simp [List.nodup_append, h, hx]

theorem sdel_nodup [DecidableEq α] (s : List α) (x : α) (h : s.Nodup) :
    (sdel s x).Nodup := List.Nodup.filter _ h

theorem aget_eq_none_iff [DecidableEq α] (m : JMap α β) (k : α) :
    aget m k = none ↔ k ∉ m.map Prod.fst := by
  induction m with
  | nil => simp [aget]
  | cons kv rest ih =>
    by_cases h : kv.1 = k
    · simp [aget, h]
    · simp [aget, h, ih, Ne.symm h]

theorem aget_isSome_iff [DecidableEq α] (m : JMap α β) (k : α) :
    (aget m k).isSome ↔ k ∈ m.map Prod.fst := by
  rcases h : aget m k with _ | v
  · simpa [h] using (aget_eq_none_iff m k).mp h
  · simp only [Option.isSome_some, true_iff]
    by_contra hk
    rw [← aget_eq_none_iff] at hk
    rw [h] at hk; cases hk

theorem aget_mem [DecidableEq α] (m : JMap α β) (k : α) (v : β) (h : aget m k = some v) :
    (k, v) ∈ m := by
  induction m with
  | nil => simp [aget] at h
  | cons kv rest ih =>
    obtain ⟨k1, w⟩ := kv
    by_cases hk : k1 = k
    · rw [aget, if_pos hk] at h
      injection h with h2
      subst hk; subst h2
      exact List.mem_cons_self _ _
    · rw [aget, if_neg hk] at h
      exact List.mem_cons_of_mem _ (ih h)

theorem aget_of_mem_nodup [DecidableEq α] (m : JMap α β) (k : α) (v : β)
    (hmem : (k, v) ∈ m) (hnd : (m.map Prod.fst).Nodup) : aget m k = some v := by
  induction m with
  | nil => cases hmem
  | cons kv rest ih =>
    rcases List.mem_cons.mp hmem with h | h
    · rw [← h]; simp [aget]
    · have hk : kv.1 ≠ k := by
        rintro rfl
        exact (List.nodup_cons.mp hnd).1 (by simpa using List.mem_map_of_mem Prod.fst h)
      rw [aget, if_neg hk]
      exact ih h (List.nodup_cons.mp hnd).2

theorem aset_map_fst_of_mem [DecidableEq α] (m : JMap α β) (k : α) (v : β)
    (h : k ∈ m.map Prod.fst) : (aset m k v).map Prod.fst = m.map Prod.fst := by
  induction m with
  | nil => simp at h
  | cons kv rest ih =>
    obtain ⟨k1, w⟩ := kv
    by_cases hk : k1 = k
    · subst hk; simp [aset]
    · have h2 : k ∈ rest.map Prod.fst := by
        rw [List.map_cons] at h
        rcases List.mem_cons.mp h with h3 | h3
        · exact absurd h3.symm hk
        · exact h3
      simp only [aset, if_neg hk, List.map_cons, ih h2]

theorem aset_map_fst_of_not_mem [DecidableEq α] (m : JMap α β) (k : α) (v : β)
    (h : k ∉ m.map Prod.fst) : (aset m k v).map Prod.fst = m.map Prod.fst ++ [k] := by
  induction m with
  | nil => simp [aset]
  | cons kv rest ih =>
    obtain ⟨k1, w⟩ := kv
    have hk : k1 ≠ k := fun he => h (by simp [he])
    have h2 : k ∉ rest.map Prod.fst := fun hm => h (by simp [hm])
    simp only [aset, if_neg hk, List.map_cons, ih h2, List.cons_append]

theorem aset_map_fst_nodup [DecidableEq α] (m : JMap α β) (k : α) (v : β)
    (h : (m.map Prod.fst).Nodup) : ((aset m k v).map Prod.fst).Nodup := by
  by_cases hk : k ∈ m.map Prod.fst
  · rwa [aset_map_fst_of_mem m k v hk]
  · rw [aset_map_fst_of_not_mem m k v hk]
    simp [List.nodup_append, h, hk]

theorem adel_map_fst_sublist [DecidableEq α] (m : JMap α β) (k : α) :
    ((adel m k).map Prod.fst).Sublist (m.map Prod.fst) :=
  List.Sublist.map Prod.fst (List.filter_sublist m)

theorem adel_map_fst_nodup [DecidableEq α] (m : JMap α β) (k : α)
    (h : (m.map Prod.fst).Nodup) : ((adel m k).map Prod.fst).Nodup :=
  (adel_map_fst_sublist m k).nodup h

theorem mem_aset_val [DecidableEq α] (m : JMap α β) (k : α) (v : β) (e : α × β)
    (h : e ∈ aset m k v) : e = (k, v) ∨ e ∈ m := by
  induction m with
  | nil => simpa [aset] using h
  | cons kv rest ih =>
    by_cases hk : kv.1 = k
    · rcases List.mem_cons.mp (by simpa [aset, hk] using h) with h2 | h2
      · exact Or.inl h2
      · exact Or.inr (List.mem_cons_of_mem _ h2)
    · rcases List.mem_cons.mp (by simpa [aset, hk] using h) with h2 | h2
      · exact Or.inr (by simp [h2])
      · rcases ih h2 with h3 | h3
        · exact Or.inl h3
        · exact Or.inr (List.mem_cons_of_mem _ h3)

theorem mem_adel_val [DecidableEq α] (m : JMap α β) (k : α) (e : α × β)
    (h : e ∈ adel m k) : e ∈ m := List.mem_of_mem_filter h

theorem splitDotChars_ne_nil (cs : List Char) : splitDotChars cs ≠ [] := by
  induction cs with
  | nil => simp [splitDotChars]
  | cons c cs ih =>
    rw [splitDotChars]
    rcases h : splitDotChars cs with _ | ⟨p, ps⟩
    · simp
    · by_cases hc : c = '.' <;> simp [hc]

theorem jsSplitDot_ne_nil (s : String) : jsSplitDot s ≠ [] := by
  unfold jsSplitDot
  simpa using splitDotChars_ne_nil s.data

theorem oget_aset (o : Obj) (k k2 : String) (v : Val) :
    oget (aset o k v) k2 = if k2 = k then v else oget o k2 := by
  unfold oget
  rw [aget_aset]
  by_cases h : k2 = k <;> simp [h]

theorem hasKey_aset (o : Obj) (k k2 : String) (v : Val) :
    hasKey (aset o k v) k2 = (k2 = k ∨ hasKey o k2 : Prop) := by
  unfold hasKey
  rw [aget_aset]
  by_cases h : k2 = k <;> simp [h]

theorem aget_mapMerge (a b : Obj) (k : String) :
    aget (a.map (fun kv => match aget b kv.1 with | some w => (kv.1, w) | none => kv)) k =
      match aget a k with
      | none => none
      | some v => some ((aget b k).getD v) := by
  induction a with
  | nil => simp [aget]
  | cons kv rest ih =>
    obtain ⟨k1, w⟩ := kv
    by_cases hk : k1 = k
    · subst hk
      rcases hb : aget b k1 with _ | u <;> simp [aget, hb]
    · rcases hb : aget b k1 with _ | u <;> simp [aget, hk, hb, ih]

theorem aget_filterNotIn_of_not_hasKey (a b : Obj) (k : String) (h : hasKey a k = false) :
    aget (b.filter (fun kv => !hasKey a kv.1)) k = aget b k := by
  induction b with
  | nil => simp
  | cons kv rest ih =>
    obtain ⟨k1, w⟩ := kv
    by_cases hk : k1 = k
    · subst hk
      simp [List.filter_cons, h, aget]
    · by_cases hin : hasKey a k1
      · simpa [List.filter_cons, hin, aget, hk] using ih
      · simp only [List.filter_cons]
        rw [if_pos (by simpa using hin)]
        simpa [aget, hk] using ih

theorem aget_filterNotIn_of_hasKey (a b : Obj) (k : String) (h : hasKey a k = true) :
    aget (b.filter (fun kv => !hasKey a kv.1)) k = none := by
  rw [aget_eq_none_iff]
  intro hmem
  rcases List.mem_map.mp hmem with ⟨e, he, hek⟩
  have := List.of_mem_filter he
  rw [hek] at this
  simp [h] at this

theorem aget_append (l1 l2 : JMap α β) [DecidableEq α] (k : α) :
    aget (l1 ++ l2) k = match aget l1 k with | some v => some v | none => aget l2 k := by
  induction l1 with
  | nil => simp [aget]
  | cons kv rest ih =>
    obtain ⟨k1, w⟩ := kv
    by_cases hk : k1 = k <;> simp [aget, hk, ih]

theorem aget_omerge (a b : Obj) (k : String) :
    aget (omerge a b) k =
      if hasKey b k then aget b k
      else if hasKey a k then aget a k
      else none := by
  unfold omerge
  rw [aget_append, aget_mapMerge]
  rcases ha : aget a k with _ | v
  · have hak : hasKey a k = false := by simp [hasKey, ha]
    rcases hb : aget b k with _ | u
    · have hbk : hasKey b k = false := by simp [hasKey, hb]
      simp [hak, hbk, aget_filterNotIn_of_not_hasKey a b k hak, hb]
    · have hbk : hasKey b k = true := by simp [hasKey, hb]
      simp [hak, hbk, aget_filterNotIn_of_not_hasKey a b k hak, hb]
  · have hak : hasKey a k = true := by simp [hasKey, ha]
    rcases hb : aget b k with _ | u
    · have hbk : hasKey b k = false := by simp [hasKey, hb]
      simp [hak, hbk, hb, ha]
    · have hbk : hasKey b k = true := by simp [hasKey, hb]
      simp [hak, hbk, hb, ha]

theorem oget_omerge (a b : Obj) (k : String) :
    oget (omerge a b) k = if hasKey b k then oget b k else oget a k := by
  unfold oget
  rw [aget_omerge]
  by_cases hb : hasKey b k
  · simp [hb]
  · by_cases ha : hasKey a k
    · simp [ha, hb]
    · have h1 : aget a k = none := by
        rcases h : aget a k with _ | v
        · rfl
        · exact absurd (by simp [hasKey, h]) ha
      simp [ha, hb, h1]

theorem hasKey_omerge (a b : Obj) (k : String) :
    hasKey (omerge a b) k = (hasKey a k || hasKey b k) := by
  unfold hasKey
  rw [aget_omerge]
  rcases ha : aget a k with _ | v <;> rcases hb : aget b k with _ | u <;>
    simp [hasKey, ha, hb]

theorem oget_eq_of_not_hasKey (o : Obj) (k : String) (h : hasKey o k = false) :
    oget o k = .vUndef := by
  unfold oget
  rcases hg : aget o k with _ | v
  · rfl
  · rw [hasKey, hg] at h; cases h

/-- Records with pointwise equal properties walk every dot-path
identically. -/
theorem getByPath_congr (r1 r2 : Obj) (h : ∀ k, oget r1 k = oget r2 k) (p : String) :
    getByPath r1 p = getByPath r2 p := by
  unfold getByPath
  by_cases hp : p = ""
  · simp [hp]
  · rw [if_neg hp, if_neg hp]
    rcases hs : jsSplitDot p with _ | ⟨q, qs⟩
    · exact absurd hs (jsSplitDot_ne_nil p)
    · show getByPathWalk _ _ = getByPathWalk _ _
      simp only [getByPathWalk, isNullish]
      have : vget (Val.vObj r1) q = vget (Val.vObj r2) q := by
        simp [vget, h q]
      rw [this]

/-! ## Well-formedness and the index-consistency invariant -/

/-- Key-set of the index on `f` for value `v` (empty when the field has no
index map or the value no entry). -/
def idxGet (idx : Indexes) (f : String) (v : Val) : List Val :=
  (aget ((aget idx f).getD []) v).getD []

/-- Structural sanity of the per-field value maps: duplicate-free value keys,
no `undefined` value key, duplicate-free key-sets — all guaranteed by
construction in the code (`Map`/`Set` semantics plus the `undefined`
skip). -/
def MapsOk (idx : Indexes) : Prop :=
  ∀ fm ∈ idx, (fm.2.map Prod.fst).Nodup ∧ ∀ e ∈ fm.2, e.1 ≠ Val.vUndef ∧ e.2.Nodup

/-- Structural well-formedness of the index structure: one value-map per
defined field (in definition order) and sane value maps. -/
def IdxShape (defs : List IndexDef) (idx : Indexes) : Prop :=
  idx.map Prod.fst = defs.map IndexDef.field ∧ MapsOk idx

/-- Well-formed collection state: every record carries a non-nullish primary
key, primary keys are duplicate-free, `_byId` is exactly the record array
keyed by primary key, index definitions name distinct fields, the index maps
are structurally well-formed, and the primary-key field is distinct from the
two store-managed timestamp fields. -/
def WF (c : Coll) : Prop :=
  (∀ r ∈ c.data, isNullish (oget r c.primaryKey) = false) ∧
  (c.data.map (fun r => oget r c.primaryKey)).Nodup ∧
  c.byId = c.data.map (fun r => (oget r c.primaryKey, r)) ∧
  (c.indexDefs.map IndexDef.field).Nodup ∧
  IdxShape c.indexDefs c.indexes ∧
  c.primaryKey ≠ "createdAt" ∧ c.primaryKey ≠ "updatedAt"

/-- The index-consistency invariant: for every indexed field and every
defined value `v`, the key-set for `v` holds exactly the primary keys of the
records whose field currently equals `v` (the `undefined` "value" is excluded
— absent-valued records are never indexed, per the index design). -/
def ConsistentP (c : Coll) : Prop :=
  ∀ d ∈ c.indexDefs, ∀ v : Val, v ≠ .vUndef → ∀ i : Val,
    (i ∈ idxGet c.indexes d.field v ↔
      ∃ r ∈ c.data, getByPath r d.field = v ∧ oget r c.primaryKey = i)

/-- Executable check of the consistency invariant (quantifying only over the
finitely many values actually present in the index entries and records). -/
def consistentB (c : Coll) : Bool :=
  c.indexDefs.all fun d =>
    (((aget c.indexes d.field).getD []).all fun vs =>
      vs.2.all fun i =>
        c.data.any fun r =>
          decide (getByPath r d.field = vs.1) && decide (oget r c.primaryKey = i)) &&
    (c.data.all fun r =>
      decide (getByPath r d.field = Val.vUndef)
        || (idxGet c.indexes d.field (getByPath r d.field)).contains (oget r c.primaryKey))

theorem consistentB_iff (c : Coll) (hWF : WF c) : consistentB c = true ↔ ConsistentP c := by
  obtain ⟨-, -, -, -, ⟨hdom, hshape⟩, -, -⟩ := hWF
  constructor
  · intro hB d hd v hv i
    have hB2 := (List.all_eq_true.mp hB) d hd
    rw [Bool.and_eq_true] at hB2
    constructor
    · intro hmem
      rcases hm : aget c.indexes d.field with _ | m
      · simp [idxGet, hm, aget] at hmem
      · rw [idxGet, hm] at hmem
        simp only [Option.getD_some] at hmem
        rcases hs : aget m v with _ | s
        · rw [hs] at hmem; simp at hmem
        · rw [hs] at hmem
          simp only [Option.getD_some] at hmem
          have hvs := (List.all_eq_true.mp hB2.1) (v, s) (by
            simpa [hm] using aget_mem m v s hs)
          have := (List.all_eq_true.mp hvs) i hmem
          rcases List.any_eq_true.mp this with ⟨r, hr, hcond⟩
          rw [Bool.and_eq_true, decide_eq_true_eq, decide_eq_true_eq] at hcond
          exact ⟨r, hr, hcond.1, hcond.2⟩
    · rintro ⟨r, hr, hfield, hpk⟩
      have := (List.all_eq_true.mp hB2.2) r hr
      rw [Bool.or_eq_true, decide_eq_true_eq] at this
      rcases this with h | h
      · exact absurd (hfield ▸ h) hv
      · rw [hfield, hpk] at h
        simpa using h
  · intro hP
    unfold consistentB
    rw [List.all_eq_true]
    intro d hd
    rw [Bool.and_eq_true]
    constructor
    · rw [List.all_eq_true]
      intro vs hvs
      rw [List.all_eq_true]
      intro i hi
      rcases hm : aget c.indexes d.field with _ | m
      · rw [hm] at hvs; simp at hvs
      · rw [hm] at hvs
        simp only [Option.getD_some] at hvs
        have hmem2 : (d.field, m) ∈ c.indexes := aget_mem _ _ _ hm
        have hsh := hshape _ hmem2
        have hvundef : vs.1 ≠ Val.vUndef := (hsh.2 vs hvs).1
        have hlook : aget m vs.1 = some vs.2 := by
          have := aget_of_mem_nodup m vs.1 vs.2 (by simpa using hvs) hsh.1
          simpa using this
        have : i ∈ idxGet c.indexes d.field vs.1 := by
          rw [idxGet, hm]
          simpa [hlook] using hi
        rcases (hP d hd vs.1 hvundef i).mp this with ⟨r, hr, hf, hp⟩
        rw [List.any_eq_true]
        exact ⟨r, hr, by simp [hf, hp]⟩
    · rw [List.all_eq_true]
      intro r hr
      rw [Bool.or_eq_true]
      by_cases hu : getByPath r d.field = Val.vUndef
      · left; simpa using hu
      · right
        have : oget r c.primaryKey ∈ idxGet c.indexes d.field (getByPath r d.field) :=
          (hP d hd _ hu _).mpr ⟨r, hr, rfl, rfl⟩
        simpa using this

theorem aget_keyed_map [DecidableEq α] (l : List β) (f : β → α) (k : α) (r : β)
    (hnd : (l.map f).Nodup) :
    aget (l.map (fun x => (f x, x))) k = some r ↔ (r ∈ l ∧ f r = k) := by
  induction l with
  | nil => simp [aget]
  | cons x rest ih =>
    have hx : f x ∉ rest.map f := (List.nodup_cons.mp (by simpa using hnd)).1
    by_cases hk : f x = k
    · subst hk
      simp only [List.map_cons, aget, if_pos rfl]
      constructor
      · rintro h
        injection h with h
        exact ⟨by simp [h], by rw [h]⟩
      · rintro ⟨hmem, hfr⟩
        rcases List.mem_cons.mp hmem with rfl | hmem2
        · rfl
        · exact absurd (hfr ▸ List.mem_map_of_mem f hmem2) hx
    · rw [List.map_cons, aget, if_neg hk]
      rw [ih (List.nodup_cons.mp (by simpa using hnd)).2]
      constructor
      · rintro ⟨hmem, hfr⟩
        exact ⟨List.mem_cons_of_mem _ hmem, hfr⟩
      · rintro ⟨hmem, hfr⟩
        rcases List.mem_cons.mp hmem with rfl | hmem2
        · exact absurd hfr hk
        · exact ⟨hmem2, hfr⟩

theorem byId_aget (c : Coll) (hWF : WF c) (i : Val) (r : Obj) :
    aget c.byId i = some r ↔ (r ∈ c.data ∧ oget r c.primaryKey = i) := by
  obtain ⟨-, hnd, hbyId, -⟩ := hWF
  rw [hbyId]
  exact aget_keyed_map c.data (fun r => oget r c.primaryKey) i r hnd

theorem byId_aget_none (c : Coll) (hWF : WF c) (i : Val) :
    aget c.byId i = none ↔ ∀ r ∈ c.data, oget r c.primaryKey ≠ i := by
  obtain ⟨-, hnd, hbyId, -⟩ := hWF
  rw [hbyId, aget_eq_none_iff]
  constructor
  · intro h r hr he
    exact h (by
      have : (oget r c.primaryKey, r) ∈ c.data.map (fun x => (oget x c.primaryKey, x)) :=
        List.mem_map_of_mem _ hr
      rw [he] at this
      simpa using List.mem_map_of_mem Prod.fst this)
  · intro h hmem
    rw [List.map_map] at hmem
    rcases List.mem_map.mp hmem with ⟨r, hr, he⟩
    exact h r hr he

/-! ## Characterization of the index-manager operations -/

theorem idxGet_aset (idx : Indexes) (f f2 : String) (m : JMap Val (List Val)) (v : Val) :
    idxGet (aset idx f m) f2 v =
      if f2 = f then (aget m v).getD [] else idxGet idx f2 v := by
  unfold idxGet
  rw [aget_aset]
  by_cases h : f2 = f <;> simp [h]

theorem mem_idxGet_aset_inner (idx : Indexes) (f : String) (value : Val) (s2 : List Val)
    (f2 : String) (v : Val) (i : Val) :
    (i ∈ idxGet (aset idx f (aset ((aget idx f).getD []) value s2)) f2 v ↔
      (if f2 = f ∧ v = value then i ∈ s2 else i ∈ idxGet idx f2 v)) := by
  rw [idxGet_aset]
  by_cases hf : f2 = f
  · subst hf
    rw [aget_aset]
    by_cases hv : v = value
    · simp [hv]
    · simp only [hv, if_neg, and_false, if_false, false_and]
      simp [idxGet]
  · simp [hf]

theorem MapsOk_aset (idx : Indexes) (f : String) (m2 : JMap Val (List Val))
    (hok : MapsOk idx)
    (hm2 : (m2.map Prod.fst).Nodup ∧ ∀ e ∈ m2, e.1 ≠ Val.vUndef ∧ e.2.Nodup) :
    MapsOk (aset idx f m2) := by
  intro fm hfm
  rcases mem_aset_val idx f m2 fm hfm with h | h
  · rw [h]; exact hm2
  · exact hok fm h

theorem valueMap_ok_aset (m : JMap Val (List Val)) (value : Val) (s2 : List Val)
    (hok : (m.map Prod.fst).Nodup ∧ ∀ e ∈ m, e.1 ≠ Val.vUndef ∧ e.2.Nodup)
    (hv : value ≠ Val.vUndef) (hs2 : s2.Nodup) :
    ((aset m value s2).map Prod.fst).Nodup ∧
      ∀ e ∈ aset m value s2, e.1 ≠ Val.vUndef ∧ e.2.Nodup := by
  refine ⟨aset_map_fst_nodup m value s2 hok.1, ?_⟩
  intro e he
  rcases mem_aset_val m value s2 e he with h | h
  · rw [h]; exact ⟨hv, hs2⟩
  · exact hok.2 e h

theorem valueMap_ok_adel (m : JMap Val (List Val)) (value : Val)
    (hok : (m.map Prod.fst).Nodup ∧ ∀ e ∈ m, e.1 ≠ Val.vUndef ∧ e.2.Nodup) :
    ((adel m value).map Prod.fst).Nodup ∧
      ∀ e ∈ adel m value, e.1 ≠ Val.vUndef ∧ e.2.Nodup :=
  ⟨adel_map_fst_nodup m value hok.1, fun e he => hok.2 e (mem_adel_val m value e he)⟩

/-- The value-map on a field present in a `MapsOk` index is itself sane. -/
theorem fieldMap_ok (idx : Indexes) (f : String) (hok : MapsOk idx) :
    ((((aget idx f).getD []).map Prod.fst).Nodup ∧
      ∀ e ∈ (aget idx f).getD [], e.1 ≠ Val.vUndef ∧ e.2.Nodup) := by
  rcases h : aget idx f with _ | m
  · simp
  · exact hok (f, m) (aget_mem idx f m h)

/-- Key-sets looked up in a `MapsOk` index are duplicate-free. -/
theorem idxGet_nodup (idx : Indexes) (f : String) (v : Val) (hok : MapsOk idx) :
    (idxGet idx f v).Nodup := by
  unfold idxGet
  rcases h : aget ((aget idx f).getD []) v with _ | s
  · simp
  · exact ((fieldMap_ok idx f hok).2 (v, s) (aget_mem _ v s h)).2

/-- `_indexInsert` preserves the structural sanity and the field domain of
the index maps, on success and on a thrown unique violation alike. -/
theorem indexInsertGo_preserve (pk : String) (rec : Obj) (defs : List IndexDef)
    (idx : Indexes) (hdom : ∀ d ∈ defs, d.field ∈ idx.map Prod.fst) (hok : MapsOk idx) :
    MapsOk (indexInsertGo pk rec defs idx).2 ∧
      (indexInsertGo pk rec defs idx).2.map Prod.fst = idx.map Prod.fst := by
  induction defs generalizing idx with
  | nil => exact ⟨hok, rfl⟩
  | cons d ds ih =>
    simp only [indexInsertGo]
    by_cases hskip : getByPath rec d.field = Val.vUndef ∨ isNullish (oget rec pk) = true
    · rw [if_pos hskip]
      exact ih idx (fun d2 h2 => hdom d2 (List.mem_cons_of_mem d h2)) hok
    · rw [if_neg hskip]
      push_neg at hskip
      by_cases hthrow : d.unique ∧ ((aget ((aget idx d.field).getD []) (getByPath rec d.field)).getD []) ≠ [] ∧
          ¬ ((aget ((aget idx d.field).getD []) (getByPath rec d.field)).getD []).contains (oget rec pk)
      · rw [if_pos hthrow]
        exact ⟨hok, rfl⟩
      · rw [if_neg hthrow]
        have hsane := valueMap_ok_aset ((aget idx d.field).getD []) (getByPath rec d.field)
          (sadd ((aget ((aget idx d.field).getD []) (getByPath rec d.field)).getD []) (oget rec pk))
          (fieldMap_ok idx d.field hok) hskip.1
          (sadd_nodup _ _ (idxGet_nodup idx d.field (getByPath rec d.field) hok))
        have hdomEq := aset_map_fst_of_mem idx d.field
          (aset ((aget idx d.field).getD []) (getByPath rec d.field)
            (sadd ((aget ((aget idx d.field).getD []) (getByPath rec d.field)).getD []) (oget rec pk)))
          (hdom d (List.mem_cons_self d ds))
        have := ih (aset idx d.field
            (aset ((aget idx d.field).getD []) (getByPath rec d.field)
              (sadd ((aget ((aget idx d.field).getD []) (getByPath rec d.field)).getD []) (oget rec pk))))
          (fun d2 h2 => by rw [hdomEq]; exact hdom d2 (List.mem_cons_of_mem d h2))
          (MapsOk_aset idx d.field _ hok hsane)
        exact ⟨this.1, this.2.trans hdomEq⟩

/-- Effect of a successful `_indexInsert` on every key-set: the record's
primary key is added to the entry of the record's (defined) value on each
indexed field; nothing else changes. -/
theorem indexInsertGo_none_mem (pk : String) (rec : Obj) (defs : List IndexDef)
    (idx idx2 : Indexes) (h : indexInsertGo pk rec defs idx = (none, idx2))
    (hnd : (defs.map IndexDef.field).Nodup) (f : String) (v : Val) (hv : v ≠ Val.vUndef)
    (i : Val) :
    i ∈ idxGet idx2 f v ↔
      (i ∈ idxGet idx f v ∨
        (f ∈ defs.map IndexDef.field ∧ getByPath rec f = v ∧
          isNullish (oget rec pk) = false ∧ i = oget rec pk)) := by
  induction defs generalizing idx with
  | nil =>
    simp only [indexInsertGo] at h
    injection h with h1 h2
    subst h2
    simp
  | cons d ds ih =>
    rw [List.map_cons, List.nodup_cons] at hnd
    simp only [indexInsertGo] at h
    by_cases hskip : getByPath rec d.field = Val.vUndef ∨ isNullish (oget rec pk) = true
    · rw [if_pos hskip] at h
      rw [ih idx h hnd.2]
      constructor
      · rintro (hm | ⟨hf, hrest⟩)
        · exact Or.inl hm
        · exact Or.inr ⟨by rw [List.map_cons]; exact List.mem_cons_of_mem _ hf, hrest⟩
      · rintro (hm | ⟨hf, hpath, hnn, hi⟩)
        · exact Or.inl hm
        · rw [List.map_cons] at hf
          rcases List.mem_cons.mp hf with hfd | hfds
          · exfalso
            rcases hskip with hu | hn
            · rw [hfd] at hpath
              rw [hpath] at hu
              exact hv hu
            · rw [hn] at hnn; cases hnn
          · exact Or.inr ⟨hfds, hpath, hnn, hi⟩
    · rw [if_neg hskip] at h
      push_neg at hskip
      have hnn : isNullish (oget rec pk) = false := by
        simpa using hskip.2
      by_cases hthrow : d.unique ∧ ((aget ((aget idx d.field).getD []) (getByPath rec d.field)).getD []) ≠ [] ∧
          ¬ ((aget ((aget idx d.field).getD []) (getByPath rec d.field)).getD []).contains (oget rec pk)
      · rw [if_pos hthrow] at h
        exact absurd (congrArg Prod.fst h) (by simp)
      · rw [if_neg hthrow] at h
        rw [ih _ h hnd.2]
        rw [mem_idxGet_aset_inner]
        by_cases hf : f = d.field
        · have hds : f ∉ ds.map IndexDef.field := by rw [hf]; exact hnd.1
          by_cases hvv : v = getByPath rec d.field
          · rw [if_pos ⟨hf, hvv⟩]
            have hIdxEq : (aget ((aget idx d.field).getD []) (getByPath rec d.field)).getD []
                = idxGet idx f v := by
              rw [hf, hvv]; rfl
            rw [mem_sadd, hIdxEq]
            constructor
            · rintro ((hm | hid) | ⟨hfds, -⟩)
              · exact Or.inl hm
              · refine Or.inr ⟨by rw [List.map_cons, hf]; exact List.mem_cons_self _ _, ?_, hnn, hid⟩
                rw [hf, ← hvv]
              · exact absurd hfds hds
            · rintro (hm | ⟨-, -, -, hid⟩)
              · exact Or.inl (Or.inl hm)
              · exact Or.inl (Or.inr hid)
          · rw [if_neg (fun hc => hvv hc.2)]
            constructor
            · rintro (hm | ⟨hfds, -⟩)
              · exact Or.inl hm
              · exact absurd hfds hds
            · rintro (hm | ⟨-, hpath, -, -⟩)
              · exact Or.inl hm
              · exact absurd (by rw [← hf]; exact hpath.symm) hvv
        · rw [if_neg (fun hc => hf hc.1)]
          constructor
          · rintro (hm | ⟨hfds, hrest⟩)
            · exact Or.inl hm
            · exact Or.inr ⟨by rw [List.map_cons]; exact List.mem_cons_of_mem _ hfds, hrest⟩
          · rintro (hm | ⟨hfc, hrest⟩)
            · exact Or.inl hm
            · rw [List.map_cons] at hfc
              rcases List.mem_cons.mp hfc with hfd | hfds
              · exact absurd hfd hf
              · exact Or.inr ⟨hfds, hrest⟩

/-- `_indexRemove` preserves structural sanity and the field domain. -/
theorem indexRemoveGo_preserve (pk : String) (rec : Obj) (defs : List IndexDef)
    (idx : Indexes) (hdom : ∀ d ∈ defs, d.field ∈ idx.map Prod.fst) (hok : MapsOk idx) :
    MapsOk (indexRemoveGo pk rec defs idx) ∧
      (indexRemoveGo pk rec defs idx).map Prod.fst = idx.map Prod.fst := by
  induction defs generalizing idx with
  | nil => exact ⟨hok, rfl⟩
  | cons d ds ih =>
    simp only [indexRemoveGo]
    by_cases hskip : getByPath rec d.field = Val.vUndef ∨ isNullish (oget rec pk) = true
    · rw [if_pos hskip]
      exact ih idx (fun d2 h2 => hdom d2 (List.mem_cons_of_mem d h2)) hok
    · rw [if_neg hskip]
      push_neg at hskip
      rcases hs : aget ((aget idx d.field).getD []) (getByPath rec d.field) with _ | s
      · simp only [hs]
        exact ih idx (fun d2 h2 => hdom d2 (List.mem_cons_of_mem d h2)) hok
      · simp only [hs]
        have hmOk := fieldMap_ok idx d.field hok
        have hm2Ok : (((if sdel s (oget rec pk) = [] then adel ((aget idx d.field).getD []) (getByPath rec d.field)
              else aset ((aget idx d.field).getD []) (getByPath rec d.field) (sdel s (oget rec pk))).map Prod.fst).Nodup ∧
            ∀ e ∈ (if sdel s (oget rec pk) = [] then adel ((aget idx d.field).getD []) (getByPath rec d.field)
              else aset ((aget idx d.field).getD []) (getByPath rec d.field) (sdel s (oget rec pk))),
              e.1 ≠ Val.vUndef ∧ e.2.Nodup) := by
          by_cases he : sdel s (oget rec pk) = []
          · rw [if_pos he]
            exact valueMap_ok_adel _ _ hmOk
          · rw [if_neg he]
            exact valueMap_ok_aset _ _ _ hmOk hskip.1
              (sdel_nodup _ _ ((hmOk.2 _ (aget_mem _ _ _ hs)).2))
        have hdomEq := aset_map_fst_of_mem idx d.field
          (if sdel s (oget rec pk) = [] then adel ((aget idx d.field).getD []) (getByPath rec d.field)
            else aset ((aget idx d.field).getD []) (getByPath rec d.field) (sdel s (oget rec pk)))
          (hdom d (List.mem_cons_self d ds))
        have hres := ih (aset idx d.field
            (if sdel s (oget rec pk) = [] then adel ((aget idx d.field).getD []) (getByPath rec d.field)
              else aset ((aget idx d.field).getD []) (getByPath rec d.field) (sdel s (oget rec pk))))
          (fun d2 h2 => by rw [hdomEq]; exact hdom d2 (List.mem_cons_of_mem d h2))
          (MapsOk_aset idx d.field _ hok hm2Ok)
        exact ⟨hres.1, hres.2.trans hdomEq⟩

/-- Effect of `_indexRemove` on every key-set: the record's primary key is
dropped from the entry of the record's (defined) value on each indexed
field; nothing else changes. -/
theorem indexRemoveGo_mem (pk : String) (rec : Obj) (defs : List IndexDef)
    (idx : Indexes) (hnd : (defs.map IndexDef.field).Nodup) (f : String) (v : Val)
    (hv : v ≠ Val.vUndef) (i : Val) :
    i ∈ idxGet (indexRemoveGo pk rec defs idx) f v ↔
      (i ∈ idxGet idx f v ∧
        ¬(f ∈ defs.map IndexDef.field ∧ getByPath rec f = v ∧
          isNullish (oget rec pk) = false ∧ i = oget rec pk)) := by
  induction defs generalizing idx with
  | nil => simp [indexRemoveGo]
  | cons d ds ih =>
    rw [List.map_cons, List.nodup_cons] at hnd
    simp only [indexRemoveGo]
    by_cases hskip : getByPath rec d.field = Val.vUndef ∨ isNullish (oget rec pk) = true
    · rw [if_pos hskip]
      rw [ih idx hnd.2]
      constructor
      · rintro ⟨hm, hneg⟩
        refine ⟨hm, ?_⟩
        rintro ⟨hfc, hpath, hnn, hi⟩
        rw [List.map_cons] at hfc
        rcases List.mem_cons.mp hfc with hfd | hfds
        · rcases hskip with hu | hn
          · rw [hfd] at hpath; rw [hpath] at hu; exact hv hu
          · rw [hn] at hnn; cases hnn
        · exact hneg ⟨hfds, hpath, hnn, hi⟩
      · rintro ⟨hm, hneg⟩
        refine ⟨hm, ?_⟩
        rintro ⟨hfds, hrest⟩
        exact hneg ⟨by rw [List.map_cons]; exact List.mem_cons_of_mem _ hfds, hrest⟩
    · rw [if_neg hskip]
      push_neg at hskip
      have hnn : isNullish (oget rec pk) = false := by simpa using hskip.2
      rcases hs : aget ((aget idx d.field).getD []) (getByPath rec d.field) with _ | s
      · simp only [hs]
        rw [ih idx hnd.2]
        constructor
        · rintro ⟨hm, hneg⟩
          refine ⟨hm, ?_⟩
          rintro ⟨hfc, hpath, hnn2, hi⟩
          rw [List.map_cons] at hfc
          rcases List.mem_cons.mp hfc with hfd | hfds
          · rw [hfd] at hm hpath
            rw [hpath] at hs
            rw [idxGet, hs] at hm
            simp at hm
          · exact hneg ⟨hfds, hpath, hnn2, hi⟩
        · rintro ⟨hm, hneg⟩
          refine ⟨hm, ?_⟩
          rintro ⟨hfds, hrest⟩
          exact hneg ⟨by rw [List.map_cons]; exact List.mem_cons_of_mem _ hfds, hrest⟩
      · simp only [hs]
        rw [ih _ hnd.2]
        have hmem2 : ∀ i2 : Val,
            i2 ∈ idxGet (aset idx d.field
              (if sdel s (oget rec pk) = [] then adel ((aget idx d.field).getD []) (getByPath rec d.field)
                else aset ((aget idx d.field).getD []) (getByPath rec d.field) (sdel s (oget rec pk)))) f v ↔
              (if f = d.field ∧ v = getByPath rec d.field then i2 ∈ s ∧ i2 ≠ oget rec pk
                else i2 ∈ idxGet idx f v) := by
          intro i2
          rw [idxGet_aset]
          by_cases hf : f = d.field
          · subst hf
            by_cases hvv : v = getByPath rec d.field
            · subst hvv
              rw [if_pos rfl,
                if_pos (show d.field = d.field ∧ getByPath rec d.field = getByPath rec d.field
                  from ⟨rfl, rfl⟩)]
              by_cases he : sdel s (oget rec pk) = []
              · rw [if_pos he, aget_adel, if_pos rfl]
                simp only [Option.getD_none, List.not_mem_nil, false_iff]
                intro hc
                have hmem3 : i2 ∈ sdel s (oget rec pk) := (mem_sdel s i2 (oget rec pk)).mpr hc
                rw [he] at hmem3
                cases hmem3
              · rw [if_neg he, aget_aset, if_pos rfl]
                simpa using mem_sdel s i2 (oget rec pk)
            · rw [if_pos rfl,
                if_neg (show ¬(d.field = d.field ∧ v = getByPath rec d.field)
                  from fun hc => hvv hc.2)]
              by_cases he : sdel s (oget rec pk) = []
              · rw [if_pos he, aget_adel, if_neg hvv]
                exact Iff.rfl
              · rw [if_neg he, aget_aset, if_neg hvv]
                exact Iff.rfl
          · rw [if_neg hf,
              if_neg (show ¬(f = d.field ∧ v = getByPath rec d.field)
                from fun hc => hf hc.1)]
        rw [hmem2 i]
        by_cases hf : f = d.field
        · have hds : f ∉ ds.map IndexDef.field := by rw [hf]; exact hnd.1
          by_cases hvv : v = getByPath rec d.field
          · rw [if_pos ⟨hf, hvv⟩]
            have hIdx : idxGet idx f v = s := by
              rw [hf, hvv, idxGet, hs]; rfl
            rw [hIdx]
            constructor
            · rintro ⟨⟨hm, hne⟩, -⟩
              refine ⟨hm, ?_⟩
              rintro ⟨-, -, -, hi⟩
              exact hne hi
            · rintro ⟨hm, hneg⟩
              refine ⟨⟨hm, ?_⟩, ?_⟩
              · intro hi
                refine hneg ⟨?_, ?_, hnn, hi⟩
                · rw [List.map_cons, hf]
                  exact List.mem_cons_self _ _
                · rw [hf, ← hvv]
              · rintro ⟨hfds, -⟩
                exact hds hfds
          · rw [if_neg (fun hc => hvv hc.2)]
            constructor
            · rintro ⟨hm, -⟩
              refine ⟨hm, ?_⟩
              rintro ⟨hfc, hpath, -, -⟩
              exact hvv (by rw [← hpath, hf])
            · rintro ⟨hm, hneg⟩
              refine ⟨hm, ?_⟩
              rintro ⟨hfds, -⟩
              exact hds hfds
        · rw [if_neg (fun hc => hf hc.1)]
          constructor
          · rintro ⟨hm, hneg⟩
            refine ⟨hm, ?_⟩
            rintro ⟨hfc, hrest⟩
            rw [List.map_cons] at hfc
            rcases List.mem_cons.mp hfc with hfd | hfds
            · exact hf hfd
            · exact hneg ⟨hfds, hrest⟩
          · rintro ⟨hm, hneg⟩
            refine ⟨hm, ?_⟩
            rintro ⟨hfds, hrest⟩
            exact hneg ⟨by rw [List.map_cons]; exact List.mem_cons_of_mem _ hfds, hrest⟩

theorem valueMap_get_nodup (m : JMap Val (List Val)) (v : Val)
    (hok : (m.map Prod.fst).Nodup ∧ ∀ e ∈ m, e.1 ≠ Val.vUndef ∧ e.2.Nodup) :
    ((aget m v).getD []).Nodup := by
  rcases h : aget m v with _ | s
  · simp
  · simpa using (hok.2 _ (aget_mem _ _ _ h)).2

theorem removeFromValueMap_ok (m : JMap Val (List Val)) (value id : Val)
    (hok : (m.map Prod.fst).Nodup ∧ ∀ e ∈ m, e.1 ≠ Val.vUndef ∧ e.2.Nodup) :
    (((removeFromValueMap m value id).map Prod.fst).Nodup ∧
      ∀ e ∈ removeFromValueMap m value id, e.1 ≠ Val.vUndef ∧ e.2.Nodup) := by
  rcases hs : aget m value with _ | s
  · simpa only [removeFromValueMap, hs] using hok
  · simp only [removeFromValueMap, hs]
    by_cases he : sdel s id = []
    · rw [if_pos he]
      exact valueMap_ok_adel _ _ hok
    · rw [if_neg he]
      exact valueMap_ok_aset _ _ _ hok (hok.2 _ (aget_mem _ _ _ hs)).1
        (sdel_nodup _ _ (hok.2 _ (aget_mem _ _ _ hs)).2)

theorem mem_removeFromValueMap (m : JMap Val (List Val)) (value id : Val) (v i : Val) :
    i ∈ (aget (removeFromValueMap m value id) v).getD [] ↔
      (i ∈ (aget m v).getD [] ∧ ¬(v = value ∧ i = id)) := by
  rcases hs : aget m value with _ | s
  · simp only [removeFromValueMap, hs]
    constructor
    · intro hm
      refine ⟨hm, ?_⟩
      rintro ⟨rfl, -⟩
      rw [hs] at hm
      simp at hm
    · rintro ⟨hm, -⟩
      exact hm
  · simp only [removeFromValueMap, hs]
    by_cases he : sdel s id = []
    · rw [if_pos he, aget_adel]
      by_cases hv : v = value
      · subst hv
        rw [if_pos rfl]
        simp only [Option.getD_none, List.not_mem_nil, false_iff]
        rw [hs]
        simp only [Option.getD_some]
        rintro ⟨hms, hneg⟩
        have h2 : i ∈ sdel s id := (mem_sdel s i id).mpr ⟨hms, fun hh => hneg ⟨by trivial, hh⟩⟩
        rw [he] at h2
        cases h2
      · rw [if_neg hv]
        constructor
        · intro hm
          exact ⟨hm, fun hc => hv hc.1⟩
        · rintro ⟨hm, -⟩
          exact hm
    · rw [if_neg he, aget_aset]
      by_cases hv : v = value
      · subst hv
        rw [if_pos rfl, hs]
        simp only [Option.getD_some]
        rw [mem_sdel]
        constructor
        · rintro ⟨hms, hne⟩
          exact ⟨hms, fun hc => hne hc.2⟩
        · rintro ⟨hms, hneg⟩
          exact ⟨hms, fun hh => hneg ⟨by trivial, hh⟩⟩
      · rw [if_neg hv]
        constructor
        · intro hm
          exact ⟨hm, fun hc => hv hc.1⟩
        · rintro ⟨hm, -⟩
          exact hm

/-- `_indexUpdate` preserves structural sanity and the field domain, on
success and on a thrown unique violation alike. -/
theorem indexUpdateGo_preserve (pk : String) (oldRec newRec : Obj) (defs : List IndexDef)
    (idx : Indexes) (hdom : ∀ d ∈ defs, d.field ∈ idx.map Prod.fst) (hok : MapsOk idx) :
    MapsOk (indexUpdateGo pk oldRec newRec defs idx).2 ∧
      (indexUpdateGo pk oldRec newRec defs idx).2.map Prod.fst = idx.map Prod.fst := by
  induction defs generalizing idx with
  | nil => exact ⟨hok, rfl⟩
  | cons d ds ih =>
    have hdomd : d.field ∈ idx.map Prod.fst := hdom d (List.mem_cons_self d ds)
    have hdomds0 : ∀ d2 ∈ ds, d2.field ∈ idx.map Prod.fst :=
      fun d2 h2 => hdom d2 (List.mem_cons_of_mem d h2)
    have hstep : ∀ m2 : JMap Val (List Val),
        ((m2.map Prod.fst).Nodup ∧ ∀ e ∈ m2, e.1 ≠ Val.vUndef ∧ e.2.Nodup) →
        MapsOk (indexUpdateGo pk oldRec newRec ds (aset idx d.field m2)).2 ∧
          (indexUpdateGo pk oldRec newRec ds (aset idx d.field m2)).2.map Prod.fst
            = idx.map Prod.fst := by
      intro m2 hm2
      have hdomEq := aset_map_fst_of_mem idx d.field m2 hdomd
      have hres := ih (aset idx d.field m2)
        (fun d2 h2 => by rw [hdomEq]; exact hdomds0 d2 h2)
        (MapsOk_aset idx d.field m2 hok hm2)
      exact ⟨hres.1, hres.2.trans hdomEq⟩
    have hmOk := fieldMap_ok idx d.field hok
    have hm1Ok : (((if getByPath oldRec d.field ≠ Val.vUndef then
            removeFromValueMap ((aget idx d.field).getD []) (getByPath oldRec d.field) (oget newRec pk)
          else (aget idx d.field).getD []).map Prod.fst).Nodup ∧
        ∀ e ∈ (if getByPath oldRec d.field ≠ Val.vUndef then
            removeFromValueMap ((aget idx d.field).getD []) (getByPath oldRec d.field) (oget newRec pk)
          else (aget idx d.field).getD []),
          e.1 ≠ Val.vUndef ∧ e.2.Nodup) := by
      by_cases ho : getByPath oldRec d.field ≠ Val.vUndef
      · rw [if_pos ho]
        exact removeFromValueMap_ok _ _ _ hmOk
      · rw [if_neg ho]
        exact hmOk
    simp only [indexUpdateGo]
    by_cases hEq : getByPath oldRec d.field = getByPath newRec d.field
    · rw [if_pos hEq]
      exact ih idx hdomds0 hok
    · rw [if_neg hEq]
      by_cases hnew : getByPath newRec d.field ≠ Val.vUndef
      · rw [if_pos hnew]
        by_cases hthrow : d.unique ∧
            ((aget (if getByPath oldRec d.field ≠ Val.vUndef then
                removeFromValueMap ((aget idx d.field).getD []) (getByPath oldRec d.field) (oget newRec pk)
              else (aget idx d.field).getD []) (getByPath newRec d.field)).getD []) ≠ [] ∧
            ¬ ((aget (if getByPath oldRec d.field ≠ Val.vUndef then
                removeFromValueMap ((aget idx d.field).getD []) (getByPath oldRec d.field) (oget newRec pk)
              else (aget idx d.field).getD []) (getByPath newRec d.field)).getD []).contains (oget newRec pk)
        · rw [if_pos hthrow]
          exact ⟨MapsOk_aset idx d.field _ hok hm1Ok,
            aset_map_fst_of_mem idx d.field _ hdomd⟩
        · rw [if_neg hthrow]
          exact hstep _ (valueMap_ok_aset _ _ _ hm1Ok hnew
            (sadd_nodup _ _ (valueMap_get_nodup _ _ hm1Ok)))
      · rw [if_neg hnew]
        exact hstep _ hm1Ok

/-- Effect of a successful `_indexUpdate` on every key-set: on each indexed
field whose value changed, the new record's primary key moves from the old
value's entry to the new value's (insofar as those values are defined);
nothing else changes. -/
theorem indexUpdateGo_none_mem (pk : String) (oldRec newRec : Obj) (defs : List IndexDef)
    (idx idx2 : Indexes) (h : indexUpdateGo pk oldRec newRec defs idx = (none, idx2))
    (hnd : (defs.map IndexDef.field).Nodup) (f : String) (v : Val) (hv : v ≠ Val.vUndef)
    (i : Val) :
    i ∈ idxGet idx2 f v ↔
      ((i ∈ idxGet idx f v ∧
          ¬(f ∈ defs.map IndexDef.field ∧ getByPath oldRec f ≠ getByPath newRec f ∧
            v = getByPath oldRec f ∧ i = oget newRec pk)) ∨
        (f ∈ defs.map IndexDef.field ∧ getByPath oldRec f ≠ getByPath newRec f ∧
          v = getByPath newRec f ∧ i = oget newRec pk)) := by
  induction defs generalizing idx with
  | nil =>
    simp only [indexUpdateGo] at h
    injection h with h1 h2
    subst h2
    simp
  | cons d ds ih =>
    rw [List.map_cons, List.nodup_cons] at hnd
    have hconsmem : ∀ g : String, g ∈ (d :: ds).map IndexDef.field ↔
        (g = d.field ∨ g ∈ ds.map IndexDef.field) := by
      intro g; rw [List.map_cons]; exact List.mem_cons
    simp only [indexUpdateGo] at h
    by_cases hEq : getByPath oldRec d.field = getByPath newRec d.field
    · rw [if_pos hEq] at h
      rw [ih idx h hnd.2]
      have halign : ∀ P : Prop,
          ((f ∈ ds.map IndexDef.field ∧ getByPath oldRec f ≠ getByPath newRec f ∧ P) ↔
            (f ∈ (d :: ds).map IndexDef.field ∧ getByPath oldRec f ≠ getByPath newRec f ∧ P)) := by
        intro P
        constructor
        · rintro ⟨hfds, hne, hP⟩
          exact ⟨(hconsmem f).mpr (Or.inr hfds), hne, hP⟩
        · rintro ⟨hfc, hne, hP⟩
          rcases (hconsmem f).mp hfc with hfd | hfds
          · exact absurd (by rw [hfd]; exact hEq) hne
          · exact ⟨hfds, hne, hP⟩
      rw [halign, halign]
    · rw [if_neg hEq] at h
      have hm1mem : ∀ v2, v2 ≠ Val.vUndef → ∀ i2 : Val,
          (i2 ∈ (aget (if getByPath oldRec d.field ≠ Val.vUndef then
              removeFromValueMap ((aget idx d.field).getD []) (getByPath oldRec d.field) (oget newRec pk)
            else (aget idx d.field).getD []) v2).getD [] ↔
            (i2 ∈ idxGet idx d.field v2 ∧
              ¬(v2 = getByPath oldRec d.field ∧ i2 = oget newRec pk))) := by
        intro v2 hv2 i2
        by_cases ho : getByPath oldRec d.field ≠ Val.vUndef
        · rw [if_pos ho, mem_removeFromValueMap]
          exact Iff.rfl
        · rw [if_neg ho]
          push_neg at ho
          constructor
          · intro hm
            refine ⟨hm, ?_⟩
            rintro ⟨hveq, -⟩
            exact hv2 (by rw [hveq, ho])
          · rintro ⟨hm, -⟩
            exact hm
      by_cases hnew : getByPath newRec d.field ≠ Val.vUndef
      · rw [if_pos hnew] at h
        by_cases hthrow : d.unique ∧
            ((aget (if getByPath oldRec d.field ≠ Val.vUndef then
                removeFromValueMap ((aget idx d.field).getD []) (getByPath oldRec d.field) (oget newRec pk)
              else (aget idx d.field).getD []) (getByPath newRec d.field)).getD []) ≠ [] ∧
            ¬ ((aget (if getByPath oldRec d.field ≠ Val.vUndef then
                removeFromValueMap ((aget idx d.field).getD []) (getByPath oldRec d.field) (oget newRec pk)
              else (aget idx d.field).getD []) (getByPath newRec d.field)).getD []).contains (oget newRec pk)
        · rw [if_pos hthrow] at h
          exact absurd (congrArg Prod.fst h) (by simp)
        · rw [if_neg hthrow] at h
          rw [ih _ h hnd.2]
          have hstep : ∀ i2 : Val,
              i2 ∈ idxGet (aset idx d.field
                (aset (if getByPath oldRec d.field ≠ Val.vUndef then
                    removeFromValueMap ((aget idx d.field).getD []) (getByPath oldRec d.field) (oget newRec pk)
                  else (aget idx d.field).getD []) (getByPath newRec d.field)
                  (sadd ((aget (if getByPath oldRec d.field ≠ Val.vUndef then
                      removeFromValueMap ((aget idx d.field).getD []) (getByPath oldRec d.field) (oget newRec pk)
                    else (aget idx d.field).getD []) (getByPath newRec d.field)).getD [])
                    (oget newRec pk)))) f v ↔
                (if f = d.field then
                  ((i2 ∈ idxGet idx f v ∧ ¬(v = getByPath oldRec f ∧ i2 = oget newRec pk)) ∨
                    (v = getByPath newRec f ∧ i2 = oget newRec pk))
                else i2 ∈ idxGet idx f v) := by
            intro i2
            rw [idxGet_aset]
            by_cases hf : f = d.field
            · rw [if_pos hf, if_pos hf]
              subst hf
              rw [aget_aset]
              by_cases hvnew : v = getByPath newRec d.field
              · rw [if_pos hvnew]
                simp only [Option.getD_some]
                rw [mem_sadd, hm1mem (getByPath newRec d.field) hnew i2]
                constructor
                · rintro (⟨hm, -⟩ | hid)
                  · exact Or.inl ⟨by rwa [hvnew], fun hc => hEq (by rw [← hvnew, hc.1])⟩
                  · exact Or.inr ⟨hvnew, hid⟩
                · rintro (⟨hm, hneg⟩ | ⟨-, hid⟩)
                  · refine Or.inl ⟨by rwa [← hvnew], ?_⟩
                    rintro ⟨hvo, hid2⟩
                    exact hneg ⟨by rw [hvnew, ← hvo], hid2⟩
                  · exact Or.inr hid
              · rw [if_neg hvnew]
                rw [hm1mem v hv i2]
                constructor
                · rintro ⟨hm, hneg⟩
                  exact Or.inl ⟨hm, hneg⟩
                · rintro (⟨hm, hneg⟩ | ⟨hvn, -⟩)
                  · exact ⟨hm, hneg⟩
                  · exact absurd hvn hvnew
            · rw [if_neg hf, if_neg hf]
          rw [hstep i]
          by_cases hf : f = d.field
          · have hds : f ∉ ds.map IndexDef.field := by rw [hf]; exact hnd.1
            rw [if_pos hf]
            constructor
            · rintro (⟨hbase, -⟩ | ⟨hfds, -⟩)
              · rcases hbase with ⟨hm, hneg⟩ | ⟨hvn, hid⟩
                · refine Or.inl ⟨hm, ?_⟩
                  rintro ⟨-, -, hvo, hid⟩
                  exact hneg ⟨hvo, hid⟩
                · exact Or.inr ⟨(hconsmem f).mpr (Or.inl hf), by rw [hf]; exact hEq, hvn, hid⟩
              · exact absurd hfds hds
            · rintro (⟨hm, hneg⟩ | ⟨-, -, hvn, hid⟩)
              · refine Or.inl ⟨Or.inl ⟨hm, ?_⟩, ?_⟩
                · rintro ⟨hvo, hid⟩
                  exact hneg ⟨(hconsmem f).mpr (Or.inl hf), by rw [hf]; exact hEq, hvo, hid⟩
                · rintro ⟨hfds, -⟩
                  exact hds hfds
              · refine Or.inl ⟨Or.inr ⟨hvn, hid⟩, ?_⟩
                rintro ⟨hfds, -⟩
                exact hds hfds
          · rw [if_neg hf]
            constructor
            · rintro (⟨hm, hneg⟩ | ⟨hfds, hrest⟩)
              · refine Or.inl ⟨hm, ?_⟩
                rintro ⟨hfc, hrest2⟩
                rcases (hconsmem f).mp hfc with hfd | hfds
                · exact hf hfd
                · exact hneg ⟨hfds, hrest2⟩
              · exact Or.inr ⟨(hconsmem f).mpr (Or.inr hfds), hrest⟩
            · rintro (⟨hm, hneg⟩ | ⟨hfc, hrest⟩)
              · refine Or.inl ⟨hm, ?_⟩
                rintro ⟨hfds, hrest2⟩
                exact hneg ⟨(hconsmem f).mpr (Or.inr hfds), hrest2⟩
              · rcases (hconsmem f).mp hfc with hfd | hfds
                · exact absurd hfd hf
                · exact Or.inr ⟨hfds, hrest⟩
      · rw [if_neg hnew] at h
        push_neg at hnew
        rw [ih _ h hnd.2]
        have hstep2 : ∀ i2 : Val,
            i2 ∈ idxGet (aset idx d.field
              (if getByPath oldRec d.field ≠ Val.vUndef then
                  removeFromValueMap ((aget idx d.field).getD []) (getByPath oldRec d.field) (oget newRec pk)
                else (aget idx d.field).getD [])) f v ↔
              (if f = d.field then
                (i2 ∈ idxGet idx f v ∧ ¬(v = getByPath oldRec f ∧ i2 = oget newRec pk))
              else i2 ∈ idxGet idx f v) := by
          intro i2
          rw [idxGet_aset]
          by_cases hf : f = d.field
          · rw [if_pos hf, if_pos hf]
            subst hf
            exact hm1mem v hv i2
          · rw [if_neg hf, if_neg hf]
        rw [hstep2 i]
        by_cases hf : f = d.field
        · have hds : f ∉ ds.map IndexDef.field := by rw [hf]; exact hnd.1
          rw [if_pos hf]
          constructor
          · rintro (⟨⟨hm, hneg⟩, -⟩ | ⟨hfds, -⟩)
            · refine Or.inl ⟨hm, ?_⟩
              rintro ⟨-, -, hvo, hid⟩
              exact hneg ⟨hvo, hid⟩
            · exact absurd hfds hds
          · rintro (⟨hm, hneg⟩ | ⟨-, -, hvn, -⟩)
            · refine Or.inl ⟨⟨hm, ?_⟩, ?_⟩
              · rintro ⟨hvo, hid⟩
                exact hneg ⟨(hconsmem f).mpr (Or.inl hf), by rw [hf]; exact hEq, hvo, hid⟩
              · rintro ⟨hfds, -⟩
                exact hds hfds
            · exact absurd (by rw [hvn, hf]; exact hnew) hv
        · rw [if_neg hf]
          constructor
          · rintro (⟨hm, hneg⟩ | ⟨hfds, hrest⟩)
            · refine Or.inl ⟨hm, ?_⟩
              rintro ⟨hfc, hrest2⟩
              rcases (hconsmem f).mp hfc with hfd | hfds
              · exact hf hfd
              · exact hneg ⟨hfds, hrest2⟩
            · exact Or.inr ⟨(hconsmem f).mpr (Or.inr hfds), hrest⟩
          · rintro (⟨hm, hneg⟩ | ⟨hfc, hrest⟩)
            · refine Or.inl ⟨hm, ?_⟩
              rintro ⟨hfds, hrest2⟩
              exact hneg ⟨(hconsmem f).mpr (Or.inr hfds), hrest2⟩
            · rcases (hconsmem f).mp hfc with hfd | hfds
              · exact absurd hfd hf
              · exact Or.inr ⟨hfds, hrest⟩

theorem aget_emptyIndexes (defs : List IndexDef) (f : String) :
    (aget (emptyIndexes defs) f).getD [] = ([] : JMap Val (List Val)) := by
  induction defs with
  | nil => simp [emptyIndexes, aget]
  | cons d ds ih =>
    by_cases h : d.field = f
    · simp [emptyIndexes, aget, h]
    · simpa [emptyIndexes, aget, h] using ih

theorem idxGet_emptyIndexes (defs : List IndexDef) (f : String) (v : Val) :
    idxGet (emptyIndexes defs) f v = [] := by
  unfold idxGet
  rw [aget_emptyIndexes]
  simp [aget]

theorem emptyIndexes_shape (defs : List IndexDef) : IdxShape defs (emptyIndexes defs) := by
  constructor
  · simp [emptyIndexes]
  · intro fm hfm
    rcases List.mem_map.mp hfm with ⟨d, -, hd⟩
    rw [← hd]
    simp

theorem indexInsertGo_err_unique (pk : String) (rec : Obj) (defs : List IndexDef)
    (idx idx2 : Indexes) (e : DBErr) (h : indexInsertGo pk rec defs idx = (some e, idx2)) :
    ∃ f v, e = .indexUnique f v := by
  induction defs generalizing idx with
  | nil => simp [indexInsertGo] at h
  | cons d ds ih =>
    simp only [indexInsertGo] at h
    by_cases hskip : getByPath rec d.field = Val.vUndef ∨ isNullish (oget rec pk) = true
    · rw [if_pos hskip] at h
      exact ih _ h
    · rw [if_neg hskip] at h
      by_cases hthrow : d.unique ∧ ((aget ((aget idx d.field).getD []) (getByPath rec d.field)).getD []) ≠ [] ∧
          ¬ ((aget ((aget idx d.field).getD []) (getByPath rec d.field)).getD []).contains (oget rec pk)
      · rw [if_pos hthrow] at h
        injection h with h1 h2
        injection h1 with h1
        exact ⟨d.field, getByPath rec d.field, h1.symm⟩
      · rw [if_neg hthrow] at h
        exact ih _ h

theorem rebuildGo_err_unique (pk : String) (defs : List IndexDef) (data : List Obj)
    (idx idx2 : Indexes) (e : DBErr) (h : rebuildGo pk defs data idx = (some e, idx2)) :
    ∃ f v, e = .indexUnique f v := by
  induction data generalizing idx with
  | nil => simp [rebuildGo] at h
  | cons r rs ih =>
    simp only [rebuildGo] at h
    rcases hres : indexInsertGo pk r defs idx with ⟨o, idx1⟩
    rw [hres] at h
    rcases o with _ | e2
    · exact ih _ h
    · injection h with h1 h2
      injection h1 with h1
      subst h1
      exact indexInsertGo_err_unique pk r defs idx idx1 e2 hres

/-- Effect of a successful rebuild loop on every key-set (relative to the
starting index structure). -/
theorem rebuildGo_none_mem (pk : String) (defs : List IndexDef) (data : List Obj)
    (idx idx2 : Indexes) (h : rebuildGo pk defs data idx = (none, idx2))
    (hnd : (defs.map IndexDef.field).Nodup) (f : String) (v : Val) (hv : v ≠ Val.vUndef)
    (i : Val) :
    i ∈ idxGet idx2 f v ↔
      (i ∈ idxGet idx f v ∨
        (f ∈ defs.map IndexDef.field ∧
          ∃ r ∈ data, getByPath r f = v ∧ isNullish (oget r pk) = false ∧ oget r pk = i)) := by
  induction data generalizing idx with
  | nil =>
    simp only [rebuildGo] at h
    injection h with h1 h2
    subst h2
    simp
  | cons r rs ih =>
    simp only [rebuildGo] at h
    rcases hres : indexInsertGo pk r defs idx with ⟨o, idx1⟩
    rw [hres] at h
    rcases o with _ | e2
    · rw [ih _ h]
      rw [indexInsertGo_none_mem pk r defs idx idx1 hres hnd f v hv i]
      constructor
      · rintro ((hm | ⟨hfd, hpath, hnn, hi⟩) | ⟨hfd, r2, hr2, hrest⟩)
        · exact Or.inl hm
        · exact Or.inr ⟨hfd, r, List.mem_cons_self r rs, hpath, hnn, hi.symm⟩
        · exact Or.inr ⟨hfd, r2, List.mem_cons_of_mem r hr2, hrest⟩
      · rintro (hm | ⟨hfd, r2, hr2, hpath, hnn, hi⟩)
        · exact Or.inl (Or.inl hm)
        · rcases List.mem_cons.mp hr2 with rfl | hr2m
          · exact Or.inl (Or.inr ⟨hfd, hpath, hnn, hi.symm⟩)
          · exact Or.inr ⟨hfd, r2, hr2m, hpath, hnn, hi⟩
    · injection h with h1 h2
      cases h1

theorem rebuildGo_preserve (pk : String) (defs : List IndexDef) (data : List Obj)
    (idx : Indexes) (hdom : ∀ d ∈ defs, d.field ∈ idx.map Prod.fst) (hok : MapsOk idx) :
    MapsOk (rebuildGo pk defs data idx).2 ∧
      (rebuildGo pk defs data idx).2.map Prod.fst = idx.map Prod.fst := by
  induction data generalizing idx with
  | nil => exact ⟨hok, rfl⟩
  | cons r rs ih =>
    simp only [rebuildGo]
    rcases hres : indexInsertGo pk r defs idx with ⟨o, idx1⟩
    have hpres := indexInsertGo_preserve pk r defs idx hdom hok
    rw [hres] at hpres
    rcases o with _ | e2
    · have := ih idx1 (fun d2 h2 => by rw [hpres.2]; exact hdom d2 h2) hpres.1
      exact ⟨this.1, this.2.trans hpres.2⟩
    · exact hpres

/-- Effect of a successful `_rebuildIndexes`: every key-set holds exactly the
primary keys of the (non-nullish-keyed) records whose field equals the
value. -/
theorem rebuildIndexes_none_mem (pk : String) (defs : List IndexDef) (data : List Obj)
    (idx2 : Indexes) (h : rebuildIndexes pk defs data = (none, idx2))
    (hnd : (defs.map IndexDef.field).Nodup) (f : String) (v : Val) (hv : v ≠ Val.vUndef)
    (i : Val) :
    i ∈ idxGet idx2 f v ↔
      (f ∈ defs.map IndexDef.field ∧
        ∃ r ∈ data, getByPath r f = v ∧ isNullish (oget r pk) = false ∧ oget r pk = i) := by
  unfold rebuildIndexes at h
  rw [rebuildGo_none_mem pk defs data _ idx2 h hnd f v hv i, idxGet_emptyIndexes]
  simp

theorem rebuildIndexes_shape (pk : String) (defs : List IndexDef) (data : List Obj) :
    IdxShape defs (rebuildIndexes pk defs data).2 := by
  unfold rebuildIndexes
  have hbase := emptyIndexes_shape defs
  have := rebuildGo_preserve pk defs data (emptyIndexes defs)
    (fun d hd => by rw [hbase.1]; exact List.mem_map_of_mem IndexDef.field hd) hbase.2
  exact ⟨this.2.trans hbase.1, this.1⟩

/-! ## Preservation of well-formedness and consistency by the operations -/

theorem aset_eq_append [DecidableEq α] (m : JMap α β) (k : α) (v : β)
    (h : aget m k = none) : aset m k v = m ++ [(k, v)] := by
  induction m with
  | nil => simp [aset]
  | cons kv rest ih =>
    obtain ⟨k1, w⟩ := kv
    by_cases hk : k1 = k
    · rw [aget, if_pos hk] at h; cases h
    · rw [aget, if_neg hk] at h
      simp [aset, hk, ih h]

theorem createOp_preserve (validator : Validator) (now : String) (freshId : Val)
    (record : Obj) (c : Coll) (rec2 : Obj) (c2 : Coll)
    (h : createOp validator now freshId record c = (.ok rec2, c2))
    (hWF : WF c) (hCons : ConsistentP c) (hfid : isNullish freshId = false) :
    WF c2 ∧ ConsistentP c2 ∧ c2.primaryKey = c.primaryKey ∧ c2.indexDefs = c.indexDefs := by
  obtain ⟨hnn0, hnd0, hbyId0, hdefs0, ⟨hdom0, hok0⟩, hts1, hts2⟩ := hWF
  rcases hval : validator record with e | rec0
  · simp only [createOp, hval] at h
    exact absurd (congrArg Prod.fst h) (by simp)
  · simp only [createOp, hval] at h
    set rec1 := (if isNullish (oget rec0 c.primaryKey) then aset rec0 c.primaryKey freshId
      else rec0) with hrec1
    set recB := (if isNullish (oget rec1 "createdAt") then aset rec1 "createdAt" (Val.vStr now)
      else rec1) with hrecB
    set rec3 := aset recB "updatedAt" (Val.vStr now) with hrec3
    have hpkB : oget rec3 c.primaryKey = oget rec1 c.primaryKey := by
      rw [hrec3, oget_aset, if_neg hts2]
      rw [hrecB]
      by_cases hcA : isNullish (oget rec1 "createdAt")
      · rw [if_pos hcA, oget_aset, if_neg hts1]
      · rw [if_neg hcA]
    have hpknn : isNullish (oget rec3 c.primaryKey) = false := by
      rw [hpkB, hrec1]
      by_cases hp0 : isNullish (oget rec0 c.primaryKey)
      · rw [if_pos hp0, oget_aset, if_pos rfl]
        exact hfid
      · rw [if_neg hp0]
        simpa using hp0
    by_cases hdup : (aget c.byId (oget rec3 c.primaryKey)).isSome
    · rw [if_pos hdup] at h
      exact absurd (congrArg Prod.fst h) (by simp)
    · rw [if_neg hdup] at h
      rcases hins : indexInsertGo c.primaryKey rec3 c.indexDefs c.indexes with ⟨o, idx2⟩
      rw [hins] at h
      rcases o with _ | e2
      · injection h with h1 h2
        injection h1 with h1
        subst h2
        subst h1
        have hfresh : ∀ r ∈ c.data, oget r c.primaryKey ≠ oget rec3 c.primaryKey := by
          have := (byId_aget_none c ⟨hnn0, hnd0, hbyId0, hdefs0, ⟨hdom0, hok0⟩, hts1, hts2⟩
            (oget rec3 c.primaryKey)).mp (by
              rcases hg : aget c.byId (oget rec3 c.primaryKey) with _ | r
              · rfl
              · rw [hg] at hdup; simp at hdup)
          exact this
        have hpres := indexInsertGo_preserve c.primaryKey rec3 c.indexDefs c.indexes
          (fun d hd => by rw [hdom0]; exact List.mem_map_of_mem IndexDef.field hd) hok0
        rw [hins] at hpres
        have hWF2 : WF { c with
            data := c.data ++ [rec3],
            byId := aset c.byId (oget rec3 c.primaryKey) rec3,
            indexes := idx2 } := by
          refine ⟨?_, ?_, ?_, hdefs0, ⟨?_, hpres.1⟩, hts1, hts2⟩
          · intro r hr
            rcases List.mem_append.mp hr with hr2 | hr2
            · exact hnn0 r hr2
            · rw [List.mem_singleton.mp hr2]
              exact hpknn
          · rw [List.map_append]
            rw [List.nodup_append]
            refine ⟨hnd0, by simp, ?_⟩
            intro a ha hb
            rcases List.mem_map.mp ha with ⟨r, hr, hra⟩
            simp only [List.map_cons, List.map_nil, List.mem_singleton] at hb
            exact hfresh r hr (by rw [hra, hb])
          · have hnone : aget c.byId (oget rec3 c.primaryKey) = none := by
              rcases hg : aget c.byId (oget rec3 c.primaryKey) with _ | r
              · rfl
              · rw [hg] at hdup; simp at hdup
            rw [aset_eq_append c.byId _ rec3 hnone, hbyId0]
            rw [List.map_append]
            simp
          · simpa [hpres.2] using hdom0
        refine ⟨hWF2, ?_, rfl, rfl⟩
        intro d hd v hv i
        simp only at hd ⊢
        rw [indexInsertGo_none_mem c.primaryKey rec3 c.indexDefs c.indexes idx2 hins hdefs0
          d.field v hv i]
        constructor
        · rintro (hm | ⟨-, hpath, -, hi⟩)
          · rcases (hCons d hd v hv i).mp hm with ⟨r, hr, hrest⟩
            exact ⟨r, List.mem_append.mpr (Or.inl hr), hrest⟩
          · exact ⟨rec3, List.mem_append.mpr (Or.inr (List.mem_singleton_self rec3)),
              hpath, hi.symm⟩
        · rintro ⟨r, hr, hpath, hpkr⟩
          rcases List.mem_append.mp hr with hr2 | hr2
          · exact Or.inl ((hCons d hd v hv i).mpr ⟨r, hr2, hpath, hpkr⟩)
          · rw [List.mem_singleton.mp hr2] at hpath hpkr
            exact Or.inr ⟨List.mem_map_of_mem IndexDef.field hd, hpath, hpknn, hpkr.symm⟩
      · exact absurd (congrArg Prod.fst h) (by simp)

theorem pk_unique (c : Coll) (hWF : WF c) : ∀ r1 ∈ c.data, ∀ r2 ∈ c.data,
    oget r1 c.primaryKey = oget r2 c.primaryKey → r1 = r2 := by
  obtain ⟨-, hnd0, -⟩ := hWF
  exact List.inj_on_of_nodup_map hnd0

theorem removeOp_preserve (id : Val) (c : Coll) (hWF : WF c) (hCons : ConsistentP c) :
    WF (removeOp id c).2 ∧ ConsistentP (removeOp id c).2 ∧
      (removeOp id c).2.primaryKey = c.primaryKey ∧
      (removeOp id c).2.indexDefs = c.indexDefs := by
  obtain ⟨hnn0, hnd0, hbyId0, hdefs0, ⟨hdom0, hok0⟩, hts1, hts2⟩ := hWF
  rcases hg : aget c.byId id with _ | existing
  · simp only [removeOp, hg]
    exact ⟨⟨hnn0, hnd0, hbyId0, hdefs0, ⟨hdom0, hok0⟩, hts1, hts2⟩, hCons, by trivial, by trivial⟩
  · simp only [removeOp, hg]
    have hWFc : WF c := ⟨hnn0, hnd0, hbyId0, hdefs0, ⟨hdom0, hok0⟩, hts1, hts2⟩
    have hex := (byId_aget c hWFc id existing).mp hg
    have hnnE : isNullish id = false := by
      have := hnn0 existing hex.1
      rwa [hex.2] at this
    have hpres := indexRemoveGo_preserve c.primaryKey existing c.indexDefs c.indexes
      (fun d hd => by rw [hdom0]; exact List.mem_map_of_mem IndexDef.field hd) hok0
    have hfiltermap : adel c.byId id =
        (c.data.filter (fun r => oget r c.primaryKey ≠ id)).map
          (fun r => (oget r c.primaryKey, r)) := by
      rw [hbyId0]
      unfold adel
      rw [List.filter_map]
      rfl
    refine ⟨⟨?_, ?_, hfiltermap, hdefs0, ⟨?_, hpres.1⟩, hts1, hts2⟩, ?_, by trivial, by trivial⟩
    · intro r hr
      exact hnn0 r (List.mem_of_mem_filter hr)
    · exact ((List.filter_sublist c.data).map _).nodup hnd0
    · simpa [hpres.2] using hdom0
    · intro d hd v hv i
      simp only at hd ⊢
      rw [indexRemoveGo_mem c.primaryKey existing c.indexDefs c.indexes hdefs0 d.field v hv i]
      rw [hCons d hd v hv i]
      constructor
      · rintro ⟨⟨r, hr, hpath, hpk⟩, hneg⟩
        have hine : i ≠ id := by
          intro hi
          subst hi
          have hre : r = existing := pk_unique c hWFc r hr existing hex.1 (by rw [hpk, hex.2])
          exact hneg ⟨List.mem_map_of_mem IndexDef.field hd, by rw [← hre, hpath],
            by rw [hex.2]; exact hnnE, by rw [hex.2]⟩
        refine ⟨r, List.mem_filter.mpr ⟨hr, ?_⟩, hpath, hpk⟩
        simp only [decide_eq_true_eq]
        intro he
        exact hine (by rw [← hpk, he])
      · rintro ⟨r, hr, hpath, hpk⟩
        have hr2 := List.mem_filter.mp hr
        have hine : oget r c.primaryKey ≠ id := by simpa using hr2.2
        refine ⟨⟨r, hr2.1, hpath, hpk⟩, ?_⟩
        rintro ⟨-, -, -, hi⟩
        rw [hex.2] at hi
        exact hine (by rw [hpk, hi])

theorem oget_committed (existing next : Obj)
    (hkeys : ∀ k, hasKey existing k = true → hasKey next k = true) (k : String) :
    oget (omerge existing next) k = oget next k := by
  rw [oget_omerge]
  by_cases hb : hasKey next k
  · rw [if_pos hb]
  · rw [if_neg hb]
    have ha : hasKey existing k = false := by
      rcases he : hasKey existing k
      · rfl
      · exact absurd (hkeys k he) hb
    rw [oget_eq_of_not_hasKey _ _ ha,
      oget_eq_of_not_hasKey _ _ (by rcases he2 : hasKey next k; rfl; exact absurd he2 hb)]

theorem updateOp_preserve (validator : Validator) (now : String) (id : Val) (patch : Obj)
    (c : Coll) (rec2 : Obj) (c2 : Coll)
    (h : updateOp validator now id patch c = (.ok rec2, c2))
    (hWF : WF c) (hCons : ConsistentP c)
    (hpatch : hasKey patch c.primaryKey = false ∨ oget patch c.primaryKey = id) :
    WF c2 ∧ ConsistentP c2 ∧ c2.primaryKey = c.primaryKey ∧ c2.indexDefs = c.indexDefs := by
  obtain ⟨hnn0, hnd0, hbyId0, hdefs0, ⟨hdom0, hok0⟩, hts1, hts2⟩ := hWF
  have hWFc : WF c := ⟨hnn0, hnd0, hbyId0, hdefs0, ⟨hdom0, hok0⟩, hts1, hts2⟩
  rcases hgx : aget c.byId id with _ | existing
  · simp only [updateOp, hgx] at h
    exact absurd (congrArg Prod.fst h) (by simp)
  · simp only [updateOp, hgx] at h
    have hex := (byId_aget c hWFc id existing).mp hgx
    have hguard : ¬(truthy (oget patch c.primaryKey) = true ∧ oget patch c.primaryKey ≠ id) := by
      rcases hpatch with hnk | hpid
      · intro hc
        rw [oget_eq_of_not_hasKey _ _ hnk] at hc
        exact absurd hc.1 (by simp [truthy])
      · intro hc
        exact hc.2 hpid
    rw [if_neg hguard] at h
    set next := aset (omerge existing patch) "updatedAt" (Val.vStr now) with hnextdef
    rcases hval : validator next with e | parsed
    · rw [hval] at h
      exact absurd (congrArg Prod.fst h) (by simp)
    · rw [hval] at h
      simp only [] at h
      rcases hupd : indexUpdateGo c.primaryKey existing next c.indexDefs c.indexes with ⟨o, idx2⟩
      rw [hupd] at h
      rcases o with _ | e2
      · injection h with h1 h2
        injection h1 with h1
        subst h2
        have hkeysnext : ∀ k, hasKey existing k = true → hasKey next k = true := by
          intro k hk
          rw [hnextdef, hasKey_aset]
          by_cases hu : k = "updatedAt"
          · simp [hu]
          · simp only [hu, false_or]
            rw [hasKey_omerge, hk]
            simp
        have hpknext : oget next c.primaryKey = id := by
          rw [hnextdef, oget_aset, if_neg hts2, oget_omerge]
          rcases hpatch with hnk | hpid
          · rw [if_neg (by simp [hnk]), hex.2]
          · by_cases hb : hasKey patch c.primaryKey
            · rw [if_pos hb]
              exact hpid
            · rw [if_neg hb, hex.2]
        have hcommit : ∀ k, oget (omerge existing next) k = oget next k :=
          oget_committed existing next hkeysnext
        have hpathcommit : ∀ f : String,
            getByPath (omerge existing next) f = getByPath next f :=
          fun f => getByPath_congr _ _ hcommit f
        have hpkcommit : oget (omerge existing next) c.primaryKey = id := by
          rw [hcommit, hpknext]
        have hnnid : isNullish id = false := by
          have := hnn0 existing hex.1
          rwa [hex.2] at this
        have hpres := indexUpdateGo_preserve c.primaryKey existing next c.indexDefs c.indexes
          (fun d hd => by rw [hdom0]; exact List.mem_map_of_mem IndexDef.field hd) hok0
        rw [hupd] at hpres
        have hpkmap : ∀ r ∈ c.data,
            oget (if oget r c.primaryKey = id then omerge existing next else r) c.primaryKey
              = oget r c.primaryKey := by
          intro r hr
          by_cases hri : oget r c.primaryKey = id
          · rw [if_pos hri, hpkcommit, hri]
          · rw [if_neg hri]
        have hdatapk : (c.data.map (fun r =>
            if oget r c.primaryKey = id then omerge existing next else r)).map
              (fun r => oget r c.primaryKey) = c.data.map (fun r => oget r c.primaryKey) := by
          rw [List.map_map]
          exact List.map_congr_left (fun r hr => hpkmap r hr)
        refine ⟨⟨?_, ?_, ?_, hdefs0, ⟨?_, hpres.1⟩, hts1, hts2⟩, ?_, by trivial, by trivial⟩
        · intro r hr
          rcases List.mem_map.mp hr with ⟨r0, hr0, hre⟩
          rw [← hre]
          by_cases hri : oget r0 c.primaryKey = id
          · rw [if_pos hri, hpkcommit]
            exact hnnid
          · rw [if_neg hri]
            exact hnn0 r0 hr0
        · rw [hdatapk]
          exact hnd0
        · rw [hbyId0, List.map_map, List.map_map]
          refine List.map_congr_left ?_
          intro r hr
          simp only [Function.comp]
          by_cases hri : oget r c.primaryKey = id
          · rw [if_pos (by simpa using hri), if_pos hri, hpkcommit, hri]
          · rw [if_neg (by simpa using hri), if_neg hri]
        · simpa [hpres.2] using hdom0
        · intro d hd v hv i
          simp only at hd ⊢
          rw [indexUpdateGo_none_mem c.primaryKey existing next c.indexDefs c.indexes idx2
            hupd hdefs0 d.field v hv i, hpknext]
          have hdmem : d.field ∈ c.indexDefs.map IndexDef.field :=
            List.mem_map_of_mem IndexDef.field hd
          constructor
          · rintro (⟨hm, hneg⟩ | ⟨-, hne, hvn, hi⟩)
            · rcases (hCons d hd v hv i).mp hm with ⟨r, hr, hpath, hpk⟩
              by_cases hri : oget r c.primaryKey = id
              · have hre : r = existing :=
                  pk_unique c hWFc r hr existing hex.1 (by rw [hri, hex.2])
                by_cases hchange : getByPath existing d.field = getByPath next d.field
                · refine ⟨omerge existing next,
                    List.mem_map.mpr ⟨r, hr, by rw [if_pos hri]⟩, ?_, ?_⟩
                  · rw [hpathcommit, ← hchange, ← hre, hpath]
                  · rw [hpkcommit, ← hri, hpk]
                · exact absurd ⟨hdmem, hchange, by rw [← hpath, hre], by rw [← hpk, hri]⟩ hneg
              · refine ⟨r, List.mem_map.mpr ⟨r, hr, by rw [if_neg hri]⟩, hpath, hpk⟩
            · refine ⟨omerge existing next,
                List.mem_map.mpr ⟨existing, hex.1, by rw [if_pos hex.2]⟩, ?_, ?_⟩
              · rw [hpathcommit, ← hvn]
              · rw [hpkcommit, hi]
          · rintro ⟨r2, hr2, hpath2, hpk2⟩
            rcases List.mem_map.mp hr2 with ⟨r, hr, hre⟩
            by_cases hri : oget r c.primaryKey = id
            · rw [if_pos hri] at hre
              rw [← hre] at hpath2 hpk2
              rw [hpathcommit] at hpath2
              rw [hpkcommit] at hpk2
              by_cases hchange : getByPath existing d.field = getByPath next d.field
              · refine Or.inl ⟨(hCons d hd v hv i).mpr
                  ⟨existing, hex.1, by rw [hchange, hpath2], by rw [hex.2, hpk2]⟩, ?_⟩
                rintro ⟨-, hne, -, -⟩
                exact hne hchange
              · exact Or.inr ⟨hdmem, hchange, hpath2.symm, hpk2.symm⟩
            · rw [if_neg hri] at hre
              rw [← hre] at hpath2 hpk2
              refine Or.inl ⟨(hCons d hd v hv i).mpr ⟨r, hr, hpath2, hpk2⟩, ?_⟩
              rintro ⟨-, -, hvo, hi⟩
              exact hri (by rw [hpk2, hi])
      · exact absurd (congrArg Prod.fst h) (by simp)

theorem normalizeRecord_pk_nn (validator : Validator) (now pk : String) (fid : Val) (r r4 : Obj)
    (h : normalizeRecord validator now pk fid r = .ok r4)
    (hval : ∀ a b, validator a = .ok b → oget b pk = oget a pk)
    (hfid : isNullish fid = false) (h1 : pk ≠ "createdAt") (h2 : pk ≠ "updatedAt") :
    isNullish (oget r4 pk) = false := by
  simp only [normalizeRecord] at h
  set r1 := (if isNullish (oget r pk) then aset r pk fid else r) with hr1
  set rB := (if isNullish (oget r1 "createdAt") then aset r1 "createdAt" (Val.vStr now) else r1)
    with hrB
  set rC := (if isNullish (oget rB "updatedAt") then aset rB "updatedAt" (Val.vStr now) else rB)
    with hrC
  rcases hv : validator rC with e | r4b
  · rw [hv] at h; cases h
  · rw [hv] at h
    injection h with h
    subst h
    rw [hval rC r4b hv]
    have hpkC : oget rC pk = oget r1 pk := by
      rw [hrC]
      have hB : oget rB pk = oget r1 pk := by
        rw [hrB]
        by_cases hc : isNullish (oget r1 "createdAt")
        · rw [if_pos hc, oget_aset, if_neg h1]
        · rw [if_neg hc]
      by_cases hu : isNullish (oget rB "updatedAt")
      · rw [if_pos hu, oget_aset, if_neg h2]
        exact hB
      · rw [if_neg hu]
        exact hB
    rw [hpkC, hr1]
    by_cases hp : isNullish (oget r pk)
    · rw [if_pos hp, oget_aset, if_pos rfl]
      exact hfid
    · rw [if_neg hp]
      simpa using hp

theorem normalizeAll_nn (validator : Validator) (now pk : String) (fresh : Nat → Val)
    (hval : ∀ a b, validator a = .ok b → oget b pk = oget a pk)
    (hfresh : ∀ i, isNullish (fresh i) = false) (h1 : pk ≠ "createdAt") (h2 : pk ≠ "updatedAt") :
    ∀ (l : List Obj) (i0 : Nat) (out : List Obj),
      normalizeAll validator now pk fresh i0 l = .ok out →
      ∀ r ∈ out, isNullish (oget r pk) = false := by
  intro l
  induction l with
  | nil =>
    intro i0 out h r hr
    simp only [normalizeAll] at h
    injection h with h
    subst h
    cases hr
  | cons r0 rs ih =>
    intro i0 out h r hr
    simp only [normalizeAll] at h
    rcases hn : normalizeRecord validator now pk (fresh i0) r0 with e | r2
    · rw [hn] at h; cases h
    · rw [hn] at h
      rcases hrest : normalizeAll validator now pk fresh (i0 + 1) rs with e | rest
      · rw [hrest] at h; cases h
      · rw [hrest] at h
        injection h with h
        subst h
        rcases List.mem_cons.mp hr with rfl | hr2
        · exact normalizeRecord_pk_nn validator now pk (fresh i0) r0 r hn hval (hfresh i0) h1 h2
        · exact ih (i0 + 1) rest hrest r hr2

theorem buildById_ok (pk : String) : ∀ (l : List Obj) (acc m : JMap Val Obj),
    (acc.map Prod.fst).Nodup → buildById pk l acc = .ok m →
    m = acc ++ l.map (fun r => (oget r pk, r)) ∧ (m.map Prod.fst).Nodup := by
  intro l
  induction l with
  | nil =>
    intro acc m hnd h
    simp only [buildById] at h
    injection h with h
    subst h
    simpa using hnd
  | cons r rs ih =>
    intro acc m hnd h
    simp only [buildById] at h
    by_cases hdup : (aget acc (oget r pk)).isSome
    · rw [if_pos hdup] at h; cases h
    · rw [if_neg hdup] at h
      have hnone : aget acc (oget r pk) = none := by
        rcases hg : aget acc (oget r pk) with _ | x
        · rfl
        · rw [hg] at hdup; simp at hdup
      have hnotin : oget r pk ∉ acc.map Prod.fst := (aget_eq_none_iff acc _).mp hnone
      have hnd2 : ((aset acc (oget r pk) r).map Prod.fst).Nodup := by
        rw [aset_eq_append _ _ _ hnone, List.map_append]
        simp [List.nodup_append, hnd, hnotin]
      have hres := ih (aset acc (oget r pk) r) m hnd2 h
      refine ⟨?_, hres.2⟩
      rw [hres.1, aset_eq_append _ _ _ hnone]
      simp

theorem replaceAllOp_preserve (validator : Validator) (now : String) (fresh : Nat → Val)
    (records : Val) (c : Coll) (u : Unit) (c2 : Coll)
    (h : replaceAllOp validator now fresh records c = (.ok u, c2))
    (hWF : WF c)
    (hval : ∀ a b, validator a = .ok b → oget b c.primaryKey = oget a c.primaryKey)
    (hfresh : ∀ i, isNullish (fresh i) = false) :
    WF c2 ∧ ConsistentP c2 ∧ c2.primaryKey = c.primaryKey ∧ c2.indexDefs = c.indexDefs := by
  obtain ⟨hnn0, hnd0, hbyId0, hdefs0, ⟨hdom0, hok0⟩, hts1, hts2⟩ := hWF
  rcases records with _ | _ | b | n | s | fields | elems
  · simp only [replaceAllOp] at h; exact absurd (congrArg Prod.fst h) (by simp)
  · simp only [replaceAllOp] at h; exact absurd (congrArg Prod.fst h) (by simp)
  · simp only [replaceAllOp] at h; exact absurd (congrArg Prod.fst h) (by simp)
  · simp only [replaceAllOp] at h; exact absurd (congrArg Prod.fst h) (by simp)
  · simp only [replaceAllOp] at h; exact absurd (congrArg Prod.fst h) (by simp)
  · simp only [replaceAllOp] at h; exact absurd (congrArg Prod.fst h) (by simp)
  · simp only [replaceAllOp] at h
    rcases hnorm : normalizeAll validator now c.primaryKey fresh 0 (elems.map spreadToObj)
      with e | normalized
    · simp only [hnorm] at h; exact absurd (congrArg Prod.fst h) (by simp)
    · simp only [hnorm] at h
      rcases hbuild : buildById c.primaryKey normalized [] with e | newById
      · simp only [hbuild] at h; exact absurd (congrArg Prod.fst h) (by simp)
      · simp only [hbuild] at h
        rcases hreb : rebuildIndexes c.primaryKey c.indexDefs normalized with ⟨o, idx2⟩
        simp only [hreb] at h
        rcases o with _ | e2
        · injection h with h1 h2
          subst h2
          have hnnAll : ∀ r ∈ normalized, isNullish (oget r c.primaryKey) = false :=
            normalizeAll_nn validator now c.primaryKey fresh hval hfresh hts1 hts2
              (elems.map spreadToObj) 0 normalized hnorm
          have hbuildOk := buildById_ok c.primaryKey normalized [] newById (by simp) hbuild
          have hbyId2 : newById = normalized.map (fun r => (oget r c.primaryKey, r)) := by
            simpa using hbuildOk.1
          have hpknd : (normalized.map (fun r => oget r c.primaryKey)).Nodup := by
            have := hbuildOk.2
            rw [hbyId2, List.map_map] at this
            simpa [Function.comp] using this
          have hshape := rebuildIndexes_shape c.primaryKey c.indexDefs normalized
          rw [hreb] at hshape
          refine ⟨⟨hnnAll, hpknd, hbyId2, hdefs0, hshape, hts1, hts2⟩, ?_, by trivial, by trivial⟩
          intro d hd v hv i
          simp only at hd ⊢
          rw [rebuildIndexes_none_mem c.primaryKey c.indexDefs normalized idx2 hreb hdefs0
            d.field v hv i]
          constructor
          · rintro ⟨-, r, hr, hpath, -, hpk⟩
            exact ⟨r, hr, hpath, hpk⟩
          · rintro ⟨r, hr, hpath, hpk⟩
            exact ⟨List.mem_map_of_mem IndexDef.field hd, r, hr, hpath, hnnAll r hr, hpk⟩
        · exact absurd (congrArg Prod.fst h) (by simp)

theorem upsertOp_preserve (validator : Validator) (now : String) (freshId : Val)
    (query payload : Obj) (c : Coll) (rec2 : Obj) (c2 : Coll)
    (h : upsertOp validator now freshId query payload c = (.ok rec2, c2))
    (hWF : WF c) (hCons : ConsistentP c)
    (hfid : isNullish freshId = false)
    (hpay : hasKey payload c.primaryKey = false) :
    WF c2 ∧ ConsistentP c2 ∧ c2.primaryKey = c.primaryKey ∧ c2.indexDefs = c.indexDefs := by
  rcases hfind : findOneOp c query with _ | found
  · simp only [upsertOp, hfind] at h
    exact createOp_preserve validator now freshId (omerge query payload) c rec2 c2 h hWF hCons hfid
  · simp only [upsertOp, hfind] at h
    exact updateOp_preserve validator now (oget found c.primaryKey) payload c rec2 c2 h hWF hCons
      (Or.inl hpay)

/-- One step of the public mutation interface, with its nondeterministic
inputs (timestamps, uuids, schema validator) carried as data. -/
inductive Op where
  | opCreate (validator : Validator) (now : String) (freshId : Val) (record : Obj)
  | opUpdate (validator : Validator) (now : String) (id : Val) (patch : Obj)
  | opUpsert (validator : Validator) (now : String) (freshId : Val) (query payload : Obj)
  | opRemove (id : Val)
  | opReplaceAll (validator : Validator) (now : String) (fresh : Nat → Val) (records : Val)

/-- Run one operation; the `Bool` is whether it completed without throwing
(`remove`'s found/not-found result is not a throw), and the state is the
post-state — mutated even by some failing operations, exactly as in the
code. -/
def runOp : Op → Coll → Bool × Coll
  | .opCreate validator now freshId record, c =>
    match createOp validator now freshId record c with
    | (.ok _, c2) => (true, c2)
    | (.error _, c2) => (false, c2)
  | .opUpdate validator now id patch, c =>
    match updateOp validator now id patch c with
    | (.ok _, c2) => (true, c2)
    | (.error _, c2) => (false, c2)
  | .opUpsert validator now freshId query payload, c =>
    match upsertOp validator now freshId query payload c with
    | (.ok _, c2) => (true, c2)
    | (.error _, c2) => (false, c2)
  | .opRemove id, c => (true, (removeOp id c).2)
  | .opReplaceAll validator now fresh records, c =>
    match replaceAllOp validator now fresh records c with
    | (.ok _, c2) => (true, c2)
    | (.error _, c2) => (false, c2)

/-- Run a sequence of operations (the caller catching failures and carrying
on, as route handlers do); the `Bool` records whether *every* operation
succeeded. -/
def runOps : List Op → Coll → Bool × Coll
  | [], c => (true, c)
  | op :: ops, c =>
    let r1 := runOp op c
    let r2 := runOps ops r1.2
    (r1.1 && r2.1, r2.2)

/-- Side conditions under which an operation cannot smuggle a nullish or
changed primary key into the store: fresh uuids are non-nullish (always true
of `uuidv4()`), an update's patch does not rebind the primary key to a
different value (the code's own guard already rejects *truthy* different
values; this also excludes the falsy ones it misses), an upsert's payload
does not name the primary key, and `replaceAll`'s validator preserves the
primary-key field. -/
def OpSafe (pk : String) : Op → Prop
  | .opCreate _ _ freshId _ => isNullish freshId = false
  | .opUpdate _ _ id patch => hasKey patch pk = false ∨ oget patch pk = id
  | .opUpsert _ _ freshId _ payload => isNullish freshId = false ∧ hasKey payload pk = false
  | .opRemove _ => True
  | .opReplaceAll validator _ fresh _ =>
      (∀ a b, validator a = .ok b → oget b pk = oget a pk) ∧
      (∀ i, isNullish (fresh i) = false)

theorem runOp_preserve (op : Op) (c : Coll) (hWF : WF c) (hCons : ConsistentP c)
    (hsafe : OpSafe c.primaryKey op) (hok : (runOp op c).1 = true) :
    WF (runOp op c).2 ∧ ConsistentP (runOp op c).2 ∧
      (runOp op c).2.primaryKey = c.primaryKey ∧ (runOp op c).2.indexDefs = c.indexDefs := by
  cases op with
  | opCreate validator now freshId record =>
    rcases hres : createOp validator now freshId record c with ⟨o, c2⟩
    rcases o with e | rec2
    · simp only [runOp, hres] at hok
      exact Bool.noConfusion hok
    · simp only [runOp, hres]
      exact createOp_preserve validator now freshId record c rec2 c2 hres hWF hCons hsafe
  | opUpdate validator now id patch =>
    rcases hres : updateOp validator now id patch c with ⟨o, c2⟩
    rcases o with e | rec2
    · simp only [runOp, hres] at hok
      exact Bool.noConfusion hok
    · simp only [runOp, hres]
      exact updateOp_preserve validator now id patch c rec2 c2 hres hWF hCons hsafe
  | opUpsert validator now freshId query payload =>
    rcases hres : upsertOp validator now freshId query payload c with ⟨o, c2⟩
    rcases o with e | rec2
    · simp only [runOp, hres] at hok
      exact Bool.noConfusion hok
    · simp only [runOp, hres]
      exact upsertOp_preserve validator now freshId query payload c rec2 c2 hres hWF hCons
        hsafe.1 hsafe.2
  | opRemove id =>
    simp only [runOp]
    have := removeOp_preserve id c hWF hCons
    exact ⟨this.1, this.2.1, this.2.2.1, this.2.2.2⟩
  | opReplaceAll validator now fresh records =>
    rcases hres : replaceAllOp validator now fresh records c with ⟨o, c2⟩
    rcases o with e | u
    · simp only [runOp, hres] at hok
      exact Bool.noConfusion hok
    · simp only [runOp, hres]
      exact replaceAllOp_preserve validator now fresh records c u c2 hres hWF hsafe.1 hsafe.2

theorem runOps_preserve (ops : List Op) (c : Coll) (hWF : WF c) (hCons : ConsistentP c)
    (hsafe : ∀ op ∈ ops, OpSafe c.primaryKey op) (hok : (runOps ops c).1 = true) :
    WF (runOps ops c).2 ∧ ConsistentP (runOps ops c).2 ∧
      (runOps ops c).2.primaryKey = c.primaryKey := by
  induction ops generalizing c with
  | nil => exact ⟨hWF, hCons, rfl⟩
  | cons op ops ih =>
    simp only [runOps] at hok ⊢
    rw [Bool.and_eq_true] at hok
    have h1 := runOp_preserve op c hWF hCons (hsafe op (List.mem_cons_self op ops)) hok.1
    have h2 := ih (runOp op c).2 h1.1 h1.2.1
      (fun op2 h2 => by rw [h1.2.2.1]; exact hsafe op2 (List.mem_cons_of_mem op h2)) hok.2
    exact ⟨h2.1, h2.2.1, h2.2.2.trans h1.2.2.1⟩

/-! ## Decomposition of `findMany` and the index/scan equivalence -/

/-- The `candidates` computation inside `findMany` (`none` both for the
missing-entry and the empty-key-set early returns). -/
def fmCandidates (c : Coll) (query : Obj) : Option (List Obj) :=
  match (query.map Prod.fst).find? (fun f => (c.indexDefs.map IndexDef.field).contains f) with
  | some f =>
    let val := oget query f
    match aget ((aget c.indexes f).getD []) val with
    | none => none
    | some ids =>
      if ids = [] then none
      else some ((ids.map (fun id => aget c.byId id)).reduceOption)
  | none => some c.data

/-- The records `findMany` matches before sorting and pagination. -/
def fmMatches (c : Coll) (query : Obj) : List Obj :=
  ((fmCandidates c query).getD []).filter (fun r => matchesQuery r query)

/-- The sort phase of `findMany`. -/
def sortPhase (options : FindOpts) (l : List Obj) : List Obj :=
  match options.sortBy with
  | none => l
  | some sb =>
    let dir : Int := if jsToLower options.sortDir = "desc" then -1 else 1
    l.mergeSort (fun a b => sortCompare sb dir a b ≤ 0)

/-- The offset/limit slice phase of `findMany`. -/
def slicePhase (options : FindOpts) (l : List Obj) : List Obj :=
  match options.limit with
  | some lim => (l.drop options.offset).take lim
  | none => l.drop options.offset

/-- `findMany` is filter, then sort, then slice; the reported `total` is the
number of matches before slicing, the offset is echoed, and the limit is
echoed except by the empty-index early return, which collapses it through
`limit || null`. -/
theorem findMany_eq (c : Coll) (query : Obj) (options : FindOpts) :
    findMany c query options =
      { items := slicePhase options (sortPhase options (fmMatches c query)),
        total := (fmMatches c query).length,
        offset := options.offset,
        limit :=
          match fmCandidates c query with
          | none => jsLimitOrNull options.limit
          | some _ => options.limit } := by
  unfold findMany fmMatches fmCandidates sortPhase slicePhase
  rcases hfind : (query.map Prod.fst).find?
      (fun f => (c.indexDefs.map IndexDef.field).contains f) with _ | f
  · simp only []
    rcases hsb : options.sortBy with _ | sb
    · rcases hl : options.limit with _ | lim <;> simp [hsb, hl]
    · rcases hl : options.limit with _ | lim <;>
        simp [hsb, hl, List.length_mergeSort]
  · simp only []
    rcases hets : aget ((aget c.indexes f).getD []) (oget query f) with _ | ids
    · rcases hsb : options.sortBy with _ | sb <;>
        rcases hl : options.limit with _ | lim <;>
        simp [hsb, hl, List.length_mergeSort]
    · by_cases hids : ids = []
      · subst hids
        rcases hsb : options.sortBy with _ | sb <;>
          rcases hl : options.limit with _ | lim <;>
          simp [hsb, hl, List.length_mergeSort]
      · rcases hsb : options.sortBy with _ | sb <;>
          rcases hl : options.limit with _ | lim <;>
          simp [hids, hsb, hl, List.length_mergeSort]

/-- The full-scan variant of `findMany` — the `else` branch of the candidate
selection (`candidates = this._data`) followed by the identical residual
filter, sort and pagination phases.  This is the reference the index
pre-filter is compared against. -/
def scanFindMany (c : Coll) (query : Obj) (options : FindOpts) : FindResult :=
  let filtered := c.data.filter (fun r => matchesQuery r query)
  let sorted :=
    match options.sortBy with
    | none => filtered
    | some sb =>
      let dir : Int := if jsToLower options.sortDir = "desc" then -1 else 1
      filtered.mergeSort (fun a b => sortCompare sb dir a b ≤ 0)
  let total := sorted.length
  let sliced :=
    match options.limit with
    | some l => (sorted.drop options.offset).take l
    | none => sorted.drop options.offset
  { items := sliced, total := total, offset := options.offset, limit := options.limit }

/-- The records the full scan matches. -/
def scanMatches (c : Coll) (query : Obj) : List Obj :=
  c.data.filter (fun r => matchesQuery r query)

theorem scanFindMany_eq (c : Coll) (query : Obj) (options : FindOpts) :
    scanFindMany c query options =
      { items := slicePhase options (sortPhase options (scanMatches c query)),
        total := (scanMatches c query).length,
        offset := options.offset,
        limit := options.limit } := by
  unfold scanFindMany scanMatches sortPhase slicePhase
  rcases hsb : options.sortBy with _ | sb <;>
    rcases hl : options.limit with _ | lim <;>
    simp [hsb, hl, List.length_mergeSort]

/-- Records in a well-formed collection are pairwise distinct. -/
theorem data_nodup (c : Coll) (hWF : WF c) : c.data.Nodup := by
  obtain ⟨-, hnd0, -⟩ := hWF
  exact List.Nodup.of_map _ hnd0

/-- Every record matched by `findMany` (through the index or not) is in the
record array. -/
theorem fmMatches_subset (c : Coll) (query : Obj) (hWF : WF c) :
    ∀ r ∈ fmMatches c query, r ∈ c.data ∧ matchesQuery r query = true := by
  intro r hr
  unfold fmMatches at hr
  have hmatch := (List.mem_filter.mp hr).2
  have hr2 := (List.mem_filter.mp hr).1
  refine ⟨?_, hmatch⟩
  unfold fmCandidates at hr2
  rcases hfind : (query.map Prod.fst).find?
      (fun f => (c.indexDefs.map IndexDef.field).contains f) with _ | f
  · rw [hfind] at hr2
    simpa using hr2
  · simp only [hfind] at hr2
    rcases hets : aget ((aget c.indexes f).getD []) (oget query f) with _ | ids
    · simp only [hets] at hr2; simp at hr2
    · simp only [hets] at hr2
      by_cases hids : ids = []
      · rw [if_pos hids] at hr2; simp at hr2
      · rw [if_neg hids] at hr2
        simp only [Option.getD_some] at hr2
        have : some r ∈ ids.map (fun id => aget c.byId id) :=
          List.reduceOption_mem_iff.mp hr2
        rcases List.mem_map.mp this with ⟨i, -, hi⟩
        exact ((byId_aget c hWF i r).mp hi).1

/-- A record matching the query holds the queried value at the first queried
field (the field the index pre-filter uses). -/
theorem matches_field (query : Obj) (f : String) (r : Obj)
    (hf : aget query f = some (oget query f))
    (hm : matchesQuery r query = true) : getByPath r f = oget query f := by
  have := (List.all_eq_true.mp hm) (f, oget query f) (aget_mem query f _ hf)
  simpa using this

/-- Index pre-filter equivalence at the level of matched record sets: in a
well-formed, index-consistent state, with every queried value defined, the
records matched through the index pre-filter are a permutation of the
records matched by the full scan. -/
theorem fmMatches_perm_scanMatches (c : Coll) (query : Obj)
    (hWF : WF c) (hCons : ConsistentP c)
    (hq : ∀ kv ∈ query, kv.2 ≠ Val.vUndef) :
    (fmMatches c query).Perm (scanMatches c query) := by
  obtain ⟨hnn0, hnd0, hbyId0, hdefs0, ⟨hdom0, hok0⟩, hts1, hts2⟩ := hWF
  have hWFc : WF c := ⟨hnn0, hnd0, hbyId0, hdefs0, ⟨hdom0, hok0⟩, hts1, hts2⟩
  rcases hfind : (query.map Prod.fst).find?
      (fun f => (c.indexDefs.map IndexDef.field).contains f) with _ | f
  · unfold fmMatches fmCandidates scanMatches
    rw [hfind]
    simp
  · have hfq : f ∈ query.map Prod.fst := List.mem_of_find?_eq_some hfind
    have hfd : f ∈ c.indexDefs.map IndexDef.field := by
      have := List.find?_some hfind
      simpa using this
    have hqf : aget query f = some (oget query f) := by
      rcases hg : aget query f with _ | v0
      · exact absurd hfq ((aget_eq_none_iff query f).mp hg)
      · simp [oget, hg]
    have hentry : (f, oget query f) ∈ query := aget_mem query f _ hqf
    have hvq : oget query f ≠ Val.vUndef := hq (f, oget query f) hentry
    rcases List.mem_map.mp hfd with ⟨d, hd, hdf⟩
    have hconsf := hCons d hd (oget query f) hvq
    rw [hdf] at hconsf
    unfold fmMatches fmCandidates scanMatches
    simp only [hfind]
    rcases hets : aget ((aget c.indexes f).getD []) (oget query f) with _ | ids
    · simp only [hets, Option.getD_none, List.filter_nil]
      have hemp : c.data.filter (fun r => matchesQuery r query) = [] := by
        rw [List.filter_eq_nil_iff]
        intro r hr hm
        have hpk := (hconsf (oget r c.primaryKey)).mpr
          ⟨r, hr, matches_field query f r hqf hm, rfl⟩
        rw [idxGet, hets] at hpk
        simp at hpk
      rw [hemp]
    · simp only [hets]
      by_cases hids : ids = []
      · rw [if_pos hids]
        simp only [Option.getD_none, List.filter_nil]
        have hemp : c.data.filter (fun r => matchesQuery r query) = [] := by
          rw [List.filter_eq_nil_iff]
          intro r hr hm
          have hpk := (hconsf (oget r c.primaryKey)).mpr
            ⟨r, hr, matches_field query f r hqf hm, rfl⟩
          rw [idxGet, hets, hids] at hpk
          simp at hpk
        rw [hemp]
      · rw [if_neg hids]
        simp only [Option.getD_some]
        have hidxget : idxGet c.indexes f (oget query f) = ids := by
          rw [idxGet, hets]; rfl
        have hidsnd : ids.Nodup := by
          rw [← hidxget]
          exact idxGet_nodup c.indexes f (oget query f) hok0
        have hcand : (ids.map (fun id => aget c.byId id)).reduceOption
            = ids.filterMap (fun id => aget c.byId id) := by
          rw [List.reduceOption, List.filterMap_map]
          rfl
        have hcandnd : ((ids.map (fun id => aget c.byId id)).reduceOption).Nodup := by
          rw [hcand]
          refine List.Nodup.filterMap ?_ hidsnd
          intro a a2 b hb hb2
          have h1 := ((byId_aget c hWFc a b).mp hb).2
          have h2 := ((byId_aget c hWFc a2 b).mp hb2).2
          rw [← h1, ← h2]
        refine List.perm_of_nodup_nodup_toFinset_eq
          (List.Nodup.filter _ hcandnd)
          (List.Nodup.filter _ (data_nodup c hWFc)) ?_
        ext r
        simp only [List.mem_toFinset, List.mem_filter]
        constructor
        · rintro ⟨hr, hm⟩
          refine ⟨?_, hm⟩
          have : some r ∈ ids.map (fun id => aget c.byId id) :=
            List.reduceOption_mem_iff.mp hr
          rcases List.mem_map.mp this with ⟨i, -, hi⟩
          exact ((byId_aget c hWFc i r).mp hi).1
        · rintro ⟨hr, hm⟩
          refine ⟨?_, hm⟩
          have hpk := (hconsf (oget r c.primaryKey)).mpr
            ⟨r, hr, matches_field query f r hqf hm, rfl⟩
          rw [hidxget] at hpk
          rw [List.reduceOption_mem_iff]
          refine List.mem_map.mpr ⟨oget r c.primaryKey, hpk, ?_⟩
          exact (byId_aget c hWFc (oget r c.primaryKey) r).mpr ⟨hr, rfl⟩

/-! ## Frame lemmas for failing operations -/

theorem createOp_err_frame (validator : Validator) (now : String) (freshId : Val)
    (record : Obj) (c : Coll) (e : DBErr) (c2 : Coll)
    (h : createOp validator now freshId record c = (.error e, c2)) :
    c2.data = c.data ∧ c2.byId = c.byId := by
  rcases hval : validator record with e0 | rec0
  · simp only [createOp, hval] at h
    injection h with h1 h2
    subst h2
    exact ⟨rfl, rfl⟩
  · simp only [createOp, hval] at h
    set rec1 := (if isNullish (oget rec0 c.primaryKey) then aset rec0 c.primaryKey freshId
      else rec0) with hrec1
    set recB := (if isNullish (oget rec1 "createdAt") then aset rec1 "createdAt" (Val.vStr now)
      else rec1) with hrecB
    set rec3 := aset recB "updatedAt" (Val.vStr now) with hrec3
    by_cases hdup : (aget c.byId (oget rec3 c.primaryKey)).isSome
    · rw [if_pos hdup] at h
      injection h with h1 h2
      subst h2
      exact ⟨rfl, rfl⟩
    · rw [if_neg hdup] at h
      rcases hins : indexInsertGo c.primaryKey rec3 c.indexDefs c.indexes with ⟨o, idx2⟩
      rw [hins] at h
      rcases o with _ | e2
      · exact absurd (congrArg Prod.fst h) (by simp)
      · injection h with h1 h2
        subst h2
        exact ⟨rfl, rfl⟩

theorem replaceAllOp_err_frame (validator : Validator) (now : String) (fresh : Nat → Val)
    (records : Val) (c : Coll) (e : DBErr) (c2 : Coll)
    (h : replaceAllOp validator now fresh records c = (.error e, c2))
    (hne : ∀ f v, e ≠ DBErr.indexUnique f v) : c2 = c := by
  rcases records with _ | _ | b | n | s | fields | elems
  · simp only [replaceAllOp] at h; injection h with h1 h2; exact h2.symm ▸ rfl
  · simp only [replaceAllOp] at h; injection h with h1 h2; exact h2.symm ▸ rfl
  · simp only [replaceAllOp] at h; injection h with h1 h2; exact h2.symm ▸ rfl
  · simp only [replaceAllOp] at h; injection h with h1 h2; exact h2.symm ▸ rfl
  · simp only [replaceAllOp] at h; injection h with h1 h2; exact h2.symm ▸ rfl
  · simp only [replaceAllOp] at h; injection h with h1 h2; exact h2.symm ▸ rfl
  · simp only [replaceAllOp] at h
    rcases hnorm : normalizeAll validator now c.primaryKey fresh 0 (elems.map spreadToObj)
      with e0 | normalized
    · simp only [hnorm] at h
      injection h with h1 h2
      exact h2.symm ▸ rfl
    · simp only [hnorm] at h
      rcases hbuild : buildById c.primaryKey normalized [] with e0 | newById
      · simp only [hbuild] at h
        injection h with h1 h2
        exact h2.symm ▸ rfl
      · simp only [hbuild] at h
        rcases hreb : rebuildIndexes c.primaryKey c.indexDefs normalized with ⟨o, idx2⟩
        simp only [hreb] at h
        rcases o with _ | e2
        · exact absurd (congrArg Prod.fst h) (by simp)
        · injection h with h1 h2
          injection h1 with h1
          rcases rebuildGo_err_unique c.primaryKey c.indexDefs normalized _ _ e2 hreb
            with ⟨f, v, hfv⟩
          exact absurd (by rw [← h1, hfv]) (hne f v)

/-! ## Concrete states used by the claims -/

/-- A freshly constructed collection (the `JSONCollection` constructor state
after an empty load): no records, empty primary-key map, one empty value-map
per index definition. -/
def newCollection (pk : String) (defs : List IndexDef) : Coll :=
  { primaryKey := pk, indexDefs := defs, data := [], byId := [],
    indexes := emptyIndexes defs }

instance (idx : Indexes) : Decidable (MapsOk idx) := by
  unfold MapsOk; infer_instance

instance (defs : List IndexDef) (idx : Indexes) : Decidable (IdxShape defs idx) := by
  unfold IdxShape; infer_instance

instance (c : Coll) : Decidable (WF c) := by
  unfold WF; infer_instance

theorem opSafe_create (pk : String) (v : Validator) (n : String) (fid : Val) (r : Obj)
    (h : isNullish fid = false) : OpSafe pk (.opCreate v n fid r) := h

theorem opSafe_update (pk : String) (v : Validator) (n : String) (id : Val) (patch : Obj)
    (h : hasKey patch pk = false ∨ oget patch pk = id) : OpSafe pk (.opUpdate v n id patch) := h

theorem opSafe_remove (pk : String) (id : Val) : OpSafe pk (.opRemove id) := trivial

theorem sortPhase_subset (options : FindOpts) (l : List Obj) (r : Obj)
    (h : r ∈ sortPhase options l) : r ∈ l := by
  unfold sortPhase at h
  rcases hsb : options.sortBy with _ | sb
  · rwa [hsb] at h
  · rw [hsb] at h
    exact List.mem_mergeSort.mp h

theorem slicePhase_subset (options : FindOpts) (l : List Obj) (r : Obj)
    (h : r ∈ slicePhase options l) : r ∈ l := by
  unfold slicePhase at h
  rcases hl : options.limit with _ | lim
  · rw [hl] at h
    exact List.mem_of_mem_drop h
  · rw [hl] at h
    exact List.mem_of_mem_drop (List.mem_of_mem_take h)

theorem idxGet_undef (idx : Indexes) (f : String) (hok : MapsOk idx) :
    idxGet idx f Val.vUndef = [] := by
  unfold idxGet
  rcases h : aget ((aget idx f).getD []) Val.vUndef with _ | s
  · simp
  · exact absurd rfl ((fieldMap_ok idx f hok).2 _ (aget_mem _ _ _ h)).1

/-! ## Concrete collections and operation sequences used by the claims -/

/-- Two indexes: a plain one on `a` and a unique one on `b`. -/
def collAB : Coll := newCollection "id" [⟨"a", false⟩, ⟨"b", true⟩]

/-- A collection with no indexes. -/
def collPlain : Coll := newCollection "id" []

def recA1 : Obj := [("id", Val.vStr "1"), ("a", Val.vStr "x"), ("b", Val.vStr "u")]

def recA2good : Obj := [("id", Val.vStr "2"), ("a", Val.vStr "y"), ("b", Val.vStr "v")]

/-- Same unique-field value `b = "u"` as `recA1`: inserting it violates the
unique index on `b` after the plain index on `a` has already been updated. -/
def recA2bad : Obj := [("id", Val.vStr "2"), ("a", Val.vStr "z"), ("b", Val.vStr "u")]

def t1 : String := "2026-01-01T10:00:00.000Z"
def t2 : String := "2026-01-01T11:00:00.000Z"
def t3 : String := "2026-01-01T12:00:00.000Z"

deriving instance DecidableEq for Except

theorem mergeSort_pair {α : Type} (le : α → α → Bool) (a b : α) :
    [a, b].mergeSort le = if le a b then [a, b] else [b, a] := by
  simp [List.mergeSort, List.merge]

/-- Two creates whose second violates the unique index on `b` after the plain
index on `a` was already mutated. -/
def c1badOps : List Op :=
  [.opCreate okValidator t1 (.vStr "u1") recA1, .opCreate okValidator t2 (.vStr "u2") recA2bad]

/-- Two successful creates followed by a remove. -/
def c1goodOps : List Op :=
  [.opCreate okValidator t1 (.vStr "u1") recA1, .opCreate okValidator t2 (.vStr "u2") recA2good,
   .opRemove (.vStr "1")]

/-- Two successful creates followed by an update that throws a unique-index
violation on `b` after the index on `a` was already rewritten. -/
def c6ops : List Op :=
  [.opCreate okValidator t1 (.vStr "u1") recA1, .opCreate okValidator t2 (.vStr "u2") recA2good,
   .opUpdate okValidator t3 (.vStr "2") [("a", .vStr "z"), ("b", .vStr "u")]]

/-- The two successful creates alone. -/
def c6pre : List Op :=
  [.opCreate okValidator t1 (.vStr "u1") recA1, .opCreate okValidator t2 (.vStr "u2") recA2good]

/-- The consistent two-record state the successful creates reach. -/
def c6preState : Coll := (runOps c6pre collAB).2

def c7ops : List Op :=
  [.opCreate okValidator t1 (.vStr "u1") [("title", .vStr "t1")],
   .opCreate okValidator t2 (.vStr "u2") [("title", .vStr "t2")]]

def c7rec1 : Obj :=
  [("title", Val.vStr "t1"), ("id", Val.vStr "u1"),
   ("createdAt", Val.vStr t1), ("updatedAt", Val.vStr t1)]

def c7rec2 : Obj :=
  [("title", Val.vStr "t2"), ("id", Val.vStr "u2"),
   ("createdAt", Val.vStr t2), ("updatedAt", Val.vStr t2)]

/-- One record created under primary key `"a"` (no indexes). -/
def c4pre : Coll :=
  (createOp okValidator t1 (.vStr "a") [("n", Val.vInt 1)] (newCollection "id" [])).2

/-- One record created under primary key `"1"` on the two-index collection. -/
def c8state : Coll := (runOps [.opCreate okValidator t1 (.vStr "u1") recA1] collAB).2

/-- The committed form of `recA1` in `c8state`. -/
def c8rec : Obj :=
  [("id", Val.vStr "1"), ("a", Val.vStr "x"), ("b", Val.vStr "u"),
   ("createdAt", Val.vStr t1), ("updatedAt", Val.vStr t1)]

/-- A replacement set with distinct primary keys but a duplicated value on
the unique index `b`. -/
def c2records : Val := .vArr [.vObj recA1, .vObj recA2bad]

/-! ## The claims -/

/-- C1 (amended): index consistency holds after any sequence of public
operations in which no operation throws: starting from a well-formed,
index-consistent collection, running any list of creates, updates, upserts,
removes and replaceAlls whose inputs satisfy the route-level side conditions
(`OpSafe`) and in which every operation reports success leaves the state
index-consistent (for every indexed field and value, the key-set equals
exactly the primary keys of the records whose field equals that value) and
well-formed.  The original claim's inclusion of failing operations is refuted
by `spec_c1_counterexample`: a failed create can leave a stale index entry. -/
theorem spec_c1_index_consistency (ops : List Op) (c : Coll)
    (hWF : WF c) (hCons : ConsistentP c)
    (hsafe : ∀ op ∈ ops, OpSafe c.primaryKey op)
    (hok : (runOps ops c).1 = true) :
    ConsistentP (runOps ops c).2 ∧ WF (runOps ops c).2 :=
  ⟨(runOps_preserve ops c hWF hCons hsafe hok).2.1,
   (runOps_preserve ops c hWF hCons hsafe hok).1⟩

/-- C1 counterexample: on a fresh collection with a plain index on `a` and a
unique index on `b`, a successful create followed by a create that fails its
unique check on `b` leaves the index on `a` holding primary key `"2"` under
value `"z"` although no record with primary key `"2"` exists — an index entry
referencing a record absent from the record set. -/
theorem spec_c1_counterexample :
    (runOps c1badOps collAB).1 = false ∧
    idxGet (runOps c1badOps collAB).2.indexes "a" (.vStr "z") = [.vStr "2"] ∧
    (∀ r ∈ (runOps c1badOps collAB).2.data, oget r "id" ≠ Val.vStr "2") := by
  decide

/-- C1 witness: a concrete successful sequence (two creates and a remove) on
the two-index collection, run through the amended theorem. -/
theorem spec_c1_witness : ConsistentP (runOps c1goodOps collAB).2 :=
  (spec_c1_index_consistency c1goodOps collAB (by decide)
    ((consistentB_iff collAB (by decide)).mp (by decide))
    (by
      intro op hop
      simp only [c1goodOps, List.mem_cons, List.not_mem_nil, or_false] at hop
      rcases hop with rfl | rfl | rfl
      · exact opSafe_create _ _ _ _ _ (by decide)
      · exact opSafe_create _ _ _ _ _ (by decide)
      · exact opSafe_remove _ _)
    (by decide)).1

/-- C2 (amended): `replaceAll` leaves the in-memory state exactly as it was
on every failure *except* a unique-index violation: non-array input,
validation failure and duplicate primary keys are all checked before any
mutation, but the index rebuild runs *after* `_data`/`_byId` are swapped, so
a unique-index violation (refutation: `spec_c2_counterexample`) leaves the
new records installed with partially rebuilt indexes. -/
theorem spec_c2_replaceAll_atomicity (validator : Validator) (now : String)
    (fresh : Nat → Val) (records : Val) (c : Coll) (e : DBErr)
    (h : (replaceAllOp validator now fresh records c).1 = .error e)
    (hne : ∀ f v, e ≠ DBErr.indexUnique f v) :
    (replaceAllOp validator now fresh records c).2 = c := by
  rcases hr : replaceAllOp validator now fresh records c with ⟨o, c2⟩
  rw [hr] at h
  have ho : o = .error e := h
  subst ho
  exact replaceAllOp_err_frame validator now fresh records c e c2 hr hne

/-- C2 counterexample: replacing the one-record state with two records that
collide on the unique index `b` fails with a unique-index error, yet installs
the new record array (and leaves the state inconsistent with its own
indexes) — `replaceAll` is not atomic on unique-index violations. -/
theorem spec_c2_counterexample :
    (replaceAllOp okValidator t2 (fun _ => .vStr "f") c2records c8state).1
      = .error (.indexUnique "b" (.vStr "u")) ∧
    (replaceAllOp okValidator t2 (fun _ => .vStr "f") c2records c8state).2.data
      ≠ c8state.data ∧
    consistentB (replaceAllOp okValidator t2 (fun _ => .vStr "f") c2records c8state).2
      = false := by
  decide

/-- C2 witness: a duplicate-primary-key failure (not a unique-index
violation) leaves the state untouched, via the amended theorem. -/
theorem spec_c2_witness :
    (replaceAllOp okValidator t2 (fun _ => .vStr "f")
      (.vArr [.vObj recA1, .vObj recA1]) c8state).2 = c8state :=
  spec_c2_replaceAll_atomicity okValidator t2 (fun _ => .vStr "f")
    (.vArr [.vObj recA1, .vObj recA1]) c8state (.primaryDup (.vStr "1"))
    (by decide) (fun f v h => DBErr.noConfusion h)

/-- C3: `create` rejection is atomic on the record set — whenever `create`
fails (validation, duplicate primary key, or unique-index violation), the
record array and the primary-key map after the call are what they were
before it (the partial index mutations of a unique failure touch only the
index structures). -/
theorem spec_c3_create_rejection_atomic (validator : Validator) (now : String)
    (freshId : Val) (record : Obj) (c : Coll) (e : DBErr)
    (h : (createOp validator now freshId record c).1 = .error e) :
    (createOp validator now freshId record c).2.data = c.data ∧
    (createOp validator now freshId record c).2.byId = c.byId := by
  rcases hr : createOp validator now freshId record c with ⟨o, c2⟩
  rw [hr] at h
  have ho : o = .error e := h
  subst ho
  exact createOp_err_frame validator now freshId record c e c2 hr

/-- C3 witness: a duplicate-primary-key rejection on the one-record state,
through the theorem. -/
theorem spec_c3_witness :
    (createOp okValidator t2 (.vStr "u9") recA1 c8state).2.data = c8state.data ∧
    (createOp okValidator t2 (.vStr "u9") recA1 c8state).2.byId = c8state.byId :=
  spec_c3_create_rejection_atomic okValidator t2 (.vStr "u9") recA1 c8state
    (.primaryDup (.vStr "1")) (by decide)

/-- C4: refuted as stated — the primary-key immutability guard tests
`patch[this.primaryKey] && patch[this.primaryKey] !== id`, so a *falsy*
replacement value (here the number `0`) slips past the `&&`: the update
succeeds instead of failing with Primary-Key-Immutable, the stored record's
primary-key field is changed to `0`, and the primary-key map still files the
record under the old key `"a"`. -/
theorem spec_c4_primary_key_mutable :
    (updateOp okValidator t2 (.vStr "a") [("id", Val.vInt 0)] c4pre).1
      = .ok [("n", Val.vInt 1), ("id", Val.vInt 0),
             ("createdAt", Val.vStr t1), ("updatedAt", Val.vStr t2)] ∧
    (updateOp okValidator t2 (.vStr "a") [("id", Val.vInt 0)] c4pre).2.data.map
        (fun r => oget r "id") = [Val.vInt 0] ∧
    readOp (.vStr "a") (updateOp okValidator t2 (.vStr "a") [("id", Val.vInt 0)] c4pre).2
      = some [("n", Val.vInt 1), ("id", Val.vInt 0),
              ("createdAt", Val.vStr t1), ("updatedAt", Val.vStr t2)] := by
  decide

/-- C7 (amended): `findMany` reports as `total` the number of records
matching the query before any slicing, slices the sorted matches by
offset/limit only after filtering and sorting, and echoes the effective
offset always — but the limit echo is exact only outside the empty-index
early return, which collapses it through `limit || null` (so a zero limit
is echoed as `null` there; refutation of the unconditional echo:
`spec_c7_counterexample`).  Concretely, creating `title:"t1"` then
`title:"t2"` and asking for the first page of a descending title sort
returns exactly the `t2` record with `total = 2`. -/
theorem spec_c7_pagination_total :
    (∀ (c : Coll) (query : Obj) (options : FindOpts),
      (findMany c query options).total = (fmMatches c query).length ∧
      (findMany c query options).items
        = slicePhase options (sortPhase options (fmMatches c query)) ∧
      (findMany c query options).offset = options.offset ∧
      (findMany c query options).limit
        = (match fmCandidates c query with
           | none => jsLimitOrNull options.limit
           | some _ => options.limit) ∧
      (∀ cands, fmCandidates c query = some cands →
        (findMany c query options).limit = options.limit)) ∧
    (runOps c7ops collPlain).1 = true ∧
    findMany (runOps c7ops collPlain).2 []
        { sortBy := some "title", sortDir := "desc", limit := some 1 }
      = { items := [c7rec2], total := 2, offset := 0, limit := some 1 } := by
  refine ⟨fun c query options => ?_, by decide, ?_⟩
  · rw [findMany_eq]
    refine ⟨rfl, rfl, rfl, rfl, ?_⟩
    intro cands hc
    show (match fmCandidates c query with
          | none => jsLimitOrNull options.limit
          | some _ => options.limit) = options.limit
    rw [hc]
  · rw [findMany_eq]
    have h1 : fmMatches (runOps c7ops collPlain).2 [] = [c7rec1, c7rec2] := by decide
    rw [h1]
    have h2 : sortPhase { sortBy := some "title", sortDir := "desc", limit := some 1 }
        [c7rec1, c7rec2] = [c7rec2, c7rec1] := by
      show [c7rec1, c7rec2].mergeSort (fun a b =>
          decide (sortCompare "title" (if jsToLower "desc" = "desc" then (-1 : Int) else 1) a b ≤ 0))
        = [c7rec2, c7rec1]
      rw [mergeSort_pair]
      decide
    rw [h2]
    decide

/-- C7 counterexample: an indexed query that hits an absent key-set takes
the early return, whose `limit || null` echo collapses the caller's
`limit = 0` to `null` — the effective limit is not echoed. -/
theorem spec_c7_counterexample :
    (findMany c6preState [("a", Val.vStr "nope")] { limit := some 0 }).limit = none ∧
    ({ limit := some 0 } : FindOpts).limit = some 0 ∧
    (findMany c6preState [("a", Val.vStr "nope")] { limit := some 0 }).items = [] ∧
    (findMany c6preState [("a", Val.vStr "nope")] { limit := some 0 }).total = 0 := by
  decide

/-- C6 (amended): the index pre-filter of `findMany` agrees with a full scan
— same total for every options and the same matched records up to order —
for every query with defined values on every *well-formed, index-consistent*
collection state.  The original claim over all reachable states is refuted by
`spec_c6_counterexample`: a state left by a failed update (reachable through
the public operations) answers the indexed query and the full scan
differently. -/
theorem spec_c6_index_prefilter_equiv (c : Coll) (query : Obj)
    (hWF : WF c) (hCons : ConsistentP c)
    (hq : ∀ kv ∈ query, kv.2 ≠ Val.vUndef) :
    (∀ options, (findMany c query options).total = (scanFindMany c query options).total) ∧
    ((findMany c query {}).items).Perm ((scanFindMany c query {}).items) := by
  have hperm := fmMatches_perm_scanMatches c query hWF hCons hq
  constructor
  · intro options
    rw [findMany_eq, scanFindMany_eq]
    exact hperm.length_eq
  · rw [findMany_eq, scanFindMany_eq]
    exact hperm

/-- C6 counterexample: after two successful creates and an update that fails
its unique check on `b` having already moved primary key `"2"` from `a="y"`
to `a="z"` in the index, the state still holds the record with `a = "y"`,
but the indexed query `{a: "y"}` reports no matches while the full scan finds
it. -/
theorem spec_c6_counterexample :
    (findMany (runOps c6ops collAB).2 [("a", Val.vStr "y")] {}).total = 0 ∧
    (scanFindMany (runOps c6ops collAB).2 [("a", Val.vStr "y")] {}).total = 1 ∧
    (findMany (runOps c6ops collAB).2 [("a", Val.vStr "y")] {}).items = [] ∧
    (scanFindMany (runOps c6ops collAB).2 [("a", Val.vStr "y")] {}).items ≠ [] := by
  decide

/-- C6 witness: on the consistent two-record state the indexed query
`{a: "x"}` and the full scan agree, through the amended theorem. -/
theorem spec_c6_witness :
    ((findMany c6preState [("a", Val.vStr "x")] {}).items).Perm
      ((scanFindMany c6preState [("a", Val.vStr "x")] {}).items) :=
  (spec_c6_index_prefilter_equiv c6preState [("a", Val.vStr "x")]
    (by decide) ((consistentB_iff c6preState (by decide)).mp (by decide))
    (by decide)).2

theorem removeOp_of_none (id : Val) (c : Coll) (h : aget c.byId id = none) :
    removeOp id c = (false, c) := by
  simp [removeOp, h]

/-- C8: idempotent remove — on a well-formed, index-consistent state holding
a record `r` under primary key `id`, the first `remove(id)` returns `true`,
the second returns `false` (a plain boolean, not an error), and after the
first call the record is gone from `read`, from every `findMany` page, and
from every index key-set. -/
theorem spec_c8_idempotent_remove (c : Coll) (id : Val) (r : Obj)
    (hWF : WF c) (hCons : ConsistentP c) (hr : readOp id c = some r) :
    (removeOp id c).1 = true ∧
    (removeOp id (removeOp id c).2).1 = false ∧
    readOp id (removeOp id c).2 = none ∧
    (∀ query options, r ∉ (findMany (removeOp id c).2 query options).items) ∧
    (∀ f v, id ∉ idxGet (removeOp id c).2.indexes f v) := by
  have hpres := removeOp_preserve id c hWF hCons
  have hr' : aget c.byId id = some r := hr
  have hdata : (removeOp id c).2.data
      = c.data.filter (fun x => oget x c.primaryKey ≠ id) := by
    simp only [removeOp, hr']
  have hbyid : (removeOp id c).2.byId = adel c.byId id := by
    simp only [removeOp, hr']
  have hpk : (removeOp id c).2.primaryKey = c.primaryKey := hpres.2.2.1
  have hdefs : (removeOp id c).2.indexDefs = c.indexDefs := hpres.2.2.2
  have hgone : aget (removeOp id c).2.byId id = none := by
    rw [hbyid, aget_adel]
    simp
  refine ⟨by simp [removeOp, hr'], ?_, ?_, ?_, ?_⟩
  · show (removeOp id (removeOp id c).2).1 = false
    rw [removeOp_of_none id _ hgone]
  · show readOp id (removeOp id c).2 = none
    rw [readOp]
    exact hgone
  · intro query options hmem
    have hWF2 : WF (removeOp id c).2 := hpres.1
    rw [findMany_eq] at hmem
    have h3 := fmMatches_subset _ query hWF2 r
      (sortPhase_subset options _ r (slicePhase_subset options _ r hmem))
    have hrdata : r ∈ (removeOp id c).2.data := h3.1
    rw [hdata] at hrdata
    have hkeep := (List.mem_filter.mp hrdata).2
    have hpkr : oget r c.primaryKey = id := ((byId_aget c hWF id r).mp hr').2
    simp [hpkr] at hkeep
  · intro f v hmem
    have hWF2 : WF (removeOp id c).2 := hpres.1
    have hCons2 : ConsistentP (removeOp id c).2 := hpres.2.1
    obtain ⟨-, -, -, -, ⟨hdom2, hok2⟩, -, -⟩ := hWF2
    by_cases hv : v = Val.vUndef
    · subst hv
      rw [idxGet_undef _ f hok2] at hmem
      exact (List.not_mem_nil id) hmem
    · by_cases hf : f ∈ (removeOp id c).2.indexes.map Prod.fst
      · rw [hdom2, hdefs] at hf
        rcases List.mem_map.mp hf with ⟨d, hd, hdf⟩
        have hd2 : d ∈ (removeOp id c).2.indexDefs := by
          rw [hdefs]
          exact hd
        rcases (hCons2 d hd2 v hv id).mp (by rw [hdf]; exact hmem)
          with ⟨r2, hr2mem, hr2f, hr2pk⟩
        rw [hdata] at hr2mem
        have hkeep2 := (List.mem_filter.mp hr2mem).2
        rw [hpk] at hr2pk
        simp [hr2pk] at hkeep2
      · have hnone : aget (removeOp id c).2.indexes f = none :=
          (aget_eq_none_iff _ f).mpr hf
        unfold idxGet at hmem
        rw [hnone] at hmem
        simp [aget] at hmem

/-- C8 witness: the concrete one-record state, its record removed twice,
through the theorem. -/
theorem spec_c8_witness :
    (removeOp (.vStr "1") c8state).1 = true ∧
    (removeOp (.vStr "1") (removeOp (.vStr "1") c8state).2).1 = false ∧
    readOp (.vStr "1") (removeOp (.vStr "1") c8state).2 = none := by
  obtain ⟨h1, h2, h3, -, -⟩ := spec_c8_idempotent_remove c8state (.vStr "1") c8rec
    (by decide) ((consistentB_iff c8state (by decide)).mp (by decide)) (by decide)
  exact ⟨h1, h2, h3⟩

def c5rec : Obj := [("x", Val.vInt 7)]

/-- The committed record of a `create` of `c5rec` at time `t1`. -/
def c5out : Obj :=
  [("x", Val.vInt 7), ("id", Val.vStr "u1"),
   ("createdAt", Val.vStr t1), ("updatedAt", Val.vStr t1)]

/-- C5 (amended): the store always stamps `updatedAt` with its own clock in
`create`, but `createdAt` is only *defaulted*: a (validated) input record
that already carries a non-nullish `createdAt` keeps the caller's value
(refutation of "never taken from caller":  `spec_c5_counterexample`).  In
`replaceAll`'s normalization both timestamps are merely defaulted, so both
caller-supplied values survive. -/
theorem spec_c5_store_timestamps (validator : Validator) (now : String) (freshId : Val)
    (record rec0 r2 : Obj) (c : Coll)
    (hval : validator record = .ok rec0)
    (hpk1 : c.primaryKey ≠ "createdAt") (hpk2 : c.primaryKey ≠ "updatedAt")
    (h : (createOp validator now freshId record c).1 = .ok r2) :
    (oget r2 "updatedAt" = .vStr now ∧
     (isNullish (oget rec0 "createdAt") = true → oget r2 "createdAt" = .vStr now) ∧
     (isNullish (oget rec0 "createdAt") = false →
       oget r2 "createdAt" = oget rec0 "createdAt")) ∧
    (∀ (pk : String) (fid : Val) (r r4 : Obj), pk ≠ "createdAt" → pk ≠ "updatedAt" →
      normalizeRecord okValidator now pk fid r = .ok r4 →
      (isNullish (oget r "createdAt") = true → oget r4 "createdAt" = .vStr now) ∧
      (isNullish (oget r "createdAt") = false → oget r4 "createdAt" = oget r "createdAt") ∧
      (isNullish (oget r "updatedAt") = true → oget r4 "updatedAt" = .vStr now) ∧
      (isNullish (oget r "updatedAt") = false →
        oget r4 "updatedAt" = oget r "updatedAt")) := by
  constructor
  · simp only [createOp, hval] at h
    set rec1 := (if isNullish (oget rec0 c.primaryKey) then aset rec0 c.primaryKey freshId
      else rec0) with hrec1
    set recB := (if isNullish (oget rec1 "createdAt") then aset rec1 "createdAt" (Val.vStr now)
      else rec1) with hrecB
    set rec3 := aset recB "updatedAt" (Val.vStr now) with hrec3
    have hc1 : oget rec1 "createdAt" = oget rec0 "createdAt" := by
      rw [hrec1]
      by_cases hn : isNullish (oget rec0 c.primaryKey) = true
      · rw [if_pos hn, oget_aset,
          if_neg (show ¬("createdAt" = c.primaryKey) from fun hh => hpk1 hh.symm)]
      · rw [if_neg hn]
    have hr2 : r2 = rec3 := by
      by_cases hdup : (aget c.byId (oget rec3 c.primaryKey)).isSome
      · rw [if_pos hdup] at h
        exact Except.noConfusion h
      · rw [if_neg hdup] at h
        rcases hins : indexInsertGo c.primaryKey rec3 c.indexDefs c.indexes with ⟨o, idx2⟩
        rw [hins] at h
        rcases o with _ | e2
        · injection h with h1
          exact h1.symm
        · exact Except.noConfusion h
    subst hr2
    have hcB : oget rec3 "createdAt" = oget recB "createdAt" := by
      rw [hrec3, oget_aset, if_neg (show ¬("createdAt" = "updatedAt") by decide)]
    refine ⟨?_, ?_, ?_⟩
    · rw [hrec3, oget_aset, if_pos rfl]
    · intro hnull
      have hcond : isNullish (oget rec1 "createdAt") = true := by
        rw [hc1]
        exact hnull
      rw [hcB, hrecB, if_pos hcond, oget_aset, if_pos rfl]
    · intro hnull
      have hcond : ¬(isNullish (oget rec1 "createdAt") = true) := by
        rw [hc1, hnull]
        exact Bool.false_ne_true
      rw [hcB, hrecB, if_neg hcond]
      exact hc1
  · intro pk fid r r4 hp1 hp2 hnorm
    simp only [normalizeRecord, okValidator] at hnorm
    set r1 := (if isNullish (oget r pk) then aset r pk fid else r) with h1
    set rA := (if isNullish (oget r1 "createdAt") then aset r1 "createdAt" (Val.vStr now)
      else r1) with hA
    set rB := (if isNullish (oget rA "updatedAt") then aset rA "updatedAt" (Val.vStr now)
      else rA) with hB
    have hr4 : r4 = rB := by
      injection hnorm with h4
      exact h4.symm
    subst hr4
    have hc1 : oget r1 "createdAt" = oget r "createdAt" := by
      rw [h1]
      by_cases hn : isNullish (oget r pk) = true
      · rw [if_pos hn, oget_aset, if_neg (show ¬("createdAt" = pk) from fun hh => hp1 hh.symm)]
      · rw [if_neg hn]
    have hu1 : oget r1 "updatedAt" = oget r "updatedAt" := by
      rw [h1]
      by_cases hn : isNullish (oget r pk) = true
      · rw [if_pos hn, oget_aset, if_neg (show ¬("updatedAt" = pk) from fun hh => hp2 hh.symm)]
      · rw [if_neg hn]
    have hcA : oget rA "updatedAt" = oget r1 "updatedAt" := by
      rw [hA]
      by_cases hn : isNullish (oget r1 "createdAt") = true
      · rw [if_pos hn, oget_aset, if_neg (show ¬("updatedAt" = "createdAt") by decide)]
      · rw [if_neg hn]
    have hcB : oget rB "createdAt" = oget rA "createdAt" := by
      rw [hB]
      by_cases hn : isNullish (oget rA "updatedAt") = true
      · rw [if_pos hn, oget_aset, if_neg (show ¬("createdAt" = "updatedAt") by decide)]
      · rw [if_neg hn]
    refine ⟨?_, ?_, ?_, ?_⟩
    · intro hnull
      have hcond : isNullish (oget r1 "createdAt") = true := by
        rw [hc1]
        exact hnull
      rw [hcB, hA, if_pos hcond, oget_aset, if_pos rfl]
    · intro hnull
      have hcond : ¬(isNullish (oget r1 "createdAt") = true) := by
        rw [hc1, hnull]
        exact Bool.false_ne_true
      rw [hcB, hA, if_neg hcond]
      exact hc1
    · intro hnull
      have hcond : isNullish (oget rA "updatedAt") = true := by
        rw [hcA, hu1]
        exact hnull
      rw [hB, if_pos hcond, oget_aset, if_pos rfl]
    · intro hnull
      have hcond : ¬(isNullish (oget rA "updatedAt") = true) := by
        rw [hcA, hu1, hnull]
        exact Bool.false_ne_true
      rw [hB, if_neg hcond, hcA]
      exact hu1

/-- C5 counterexample: a create whose input carries `createdAt =
"1999-01-01…"` commits that caller-supplied value although the store clock
says `t1` — `createdAt` is not assigned by the store when the caller
supplies one. -/
theorem spec_c5_counterexample :
    (createOp okValidator t1 (.vStr "u1")
        [("createdAt", Val.vStr "1999-01-01T00:00:00.000Z")] collPlain).1
      = .ok [("createdAt", Val.vStr "1999-01-01T00:00:00.000Z"),
             ("id", Val.vStr "u1"), ("updatedAt", Val.vStr t1)] ∧
    ("1999-01-01T00:00:00.000Z" : String) ≠ t1 := by
  decide

/-- C5 witness: creating a record with no timestamps stamps both with the
store clock, through the amended theorem. -/
theorem spec_c5_witness :
    (oget c5out "updatedAt" = .vStr t1 ∧
     (isNullish (oget c5rec "createdAt") = true → oget c5out "createdAt" = .vStr t1) ∧
     (isNullish (oget c5rec "createdAt") = false →
       oget c5out "createdAt" = oget c5rec "createdAt")) ∧
    (∀ (pk : String) (fid : Val) (r r4 : Obj), pk ≠ "createdAt" → pk ≠ "updatedAt" →
      normalizeRecord okValidator t1 pk fid r = .ok r4 →
      (isNullish (oget r "createdAt") = true → oget r4 "createdAt" = .vStr t1) ∧
      (isNullish (oget r "createdAt") = false → oget r4 "createdAt" = oget r "createdAt") ∧
      (isNullish (oget r "updatedAt") = true → oget r4 "updatedAt" = .vStr t1) ∧
      (isNullish (oget r "updatedAt") = false →
        oget r4 "updatedAt" = oget r "updatedAt")) :=
  spec_c5_store_timestamps okValidator t1 (.vStr "u1") c5rec c5rec c5out collPlain rfl
    (by decide) (by decide) (by decide)

/-- C10: lenient load — an absent backing file and blank (empty or
all-whitespace) content both load as the empty record array without error;
non-absent read failures and `JSON.parse` errors propagate unmodified; and
the Corrupt-Store error arises exactly when non-blank content parses
successfully to a non-array value. -/
theorem spec_c10_lenient_load (parse : String → Except String Val) (name : String) :
    ensureLoaded parse name .absent = .ok [] ∧
    (∀ s, s.data.all jsWhitespace = true →
      ensureLoaded parse name (.content s) = .ok []) ∧
    (∀ msg, ensureLoaded parse name (.ioFailure msg) = .error (.ioError msg)) ∧
    (∀ s msg, s.data.all jsWhitespace = false → parse s = .error msg →
      ensureLoaded parse name (.content s) = .error (.parseError msg)) ∧
    (∀ file, ensureLoaded parse name file = .error (.corrupt name) ↔
      ∃ s v, file = .content s ∧ s.data.all jsWhitespace = false ∧
        parse s = .ok v ∧ ∀ elems, v ≠ .vArr elems) := by
  refine ⟨rfl, ?_, fun msg => rfl, ?_, ?_⟩
  · intro s hs
    simp [ensureLoaded, readJSONFile, hs]
  · intro s msg hs hp
    simp [ensureLoaded, readJSONFile, hs, hp]
  · intro file
    constructor
    · intro h
      rcases file with _ | msg | s
      · exact absurd h (by simp [ensureLoaded, readJSONFile])
      · exact absurd h (by simp [ensureLoaded, readJSONFile])
      · by_cases hs : s.data.all jsWhitespace = true
        · exact absurd h (by simp [ensureLoaded, readJSONFile, hs])
        · rcases hp : parse s with msg | v
          · exact absurd h (by simp [ensureLoaded, readJSONFile, hs, hp])
          · refine ⟨s, v, rfl, Bool.not_eq_true _ ▸ hs, hp, ?_⟩
            intro elems he
            subst he
            exact absurd h (by simp [ensureLoaded, readJSONFile, hs, hp])
    · rintro ⟨s, v, rfl, hs, hp, hv⟩
      rcases v with _ | _ | b | n | str | fields | elems
      · simp [ensureLoaded, readJSONFile, hs, hp]
      · simp [ensureLoaded, readJSONFile, hs, hp]
      · simp [ensureLoaded, readJSONFile, hs, hp]
      · simp [ensureLoaded, readJSONFile, hs, hp]
      · simp [ensureLoaded, readJSONFile, hs, hp]
      · simp [ensureLoaded, readJSONFile, hs, hp]
      · exact absurd rfl (hv elems)

/-- The platform `JSON.parse` restricted to the three inputs the witness
exercises. -/
def parseDemo : String → Except String Val := fun s =>
  if s = "[]" then .ok (.vArr [])
  else if s = "7" then .ok (.vInt 7)
  else .error "Unexpected token"

/-- C10 witness: concretely, an absent file and blank content (ordinary
whitespace, and a lone form feed — blank to JavaScript `trim`) load empty,
an I/O failure propagates, and numeric content corrupts, through the
theorem. -/
theorem spec_c10_witness :
    ensureLoaded parseDemo "posts" .absent = .ok [] ∧
    ensureLoaded parseDemo "posts" (.content "  \n ") = .ok [] ∧
    ensureLoaded parseDemo "posts" (.content "\x0c") = .ok [] ∧
    ensureLoaded parseDemo "posts" (.ioFailure "EACCES") = .error (.ioError "EACCES") ∧
    ensureLoaded parseDemo "posts" (.content "7") = .error (.corrupt "posts") := by
  obtain ⟨h1, h2, h3, h4, h5⟩ := spec_c10_lenient_load parseDemo "posts"
  exact ⟨h1, h2 "  \n " (by decide), h2 "\x0c" (by decide), h3 "EACCES",
    (h5 (.content "7")).mpr ⟨"7", .vInt 7, rfl, by decide, by decide,
      fun elems he => Val.noConfusion he⟩⟩

/-- The rendering of one member value, `none` for dropped `undefined`s. -/
def renderField (d : Nat) : Val → Option String
  | .vUndef => none
  | w => some (jsonRender w d)

theorem renderField_ne_undef (d : Nat) (v : Val) (h : v ≠ Val.vUndef) :
    renderField d v = some (jsonRender v d) := by
  cases v <;> first | rfl | exact absurd rfl h

theorem jsonRenderFields_keys (f : List (String × Val)) (d : Nat) :
    (jsonRenderFields f d).map Prod.fst = f.map Prod.fst := by
  induction f with
  | nil => rfl
  | cons kv rest ih =>
    obtain ⟨k, v⟩ := kv
    simp [jsonRenderFields, ih]

theorem jsonRenderFields_cons (k1 : String) (v : Val) (rest : List (String × Val)) (d : Nat) :
    jsonRenderFields ((k1, v) :: rest) d = (k1, renderField d v) :: jsonRenderFields rest d := by
  cases v <;> rfl

theorem aget_jsonRenderFields (f : List (String × Val)) (d : Nat) (k : String) :
    aget (jsonRenderFields f d) k = (aget f k).map (renderField d) := by
  induction f with
  | nil => rfl
  | cons kv rest ih =>
    obtain ⟨k1, v⟩ := kv
    rw [jsonRenderFields_cons]
    simp only [aget]
    by_cases h : k1 = k
    · rw [if_pos h, if_pos h]
      rfl
    · rw [if_neg h, if_neg h]
      exact ih

theorem valEquiv_undef_iff (w : Val) : valEquiv Val.vUndef w = true ↔ w = Val.vUndef := by
  cases w <;> simp [valEquiv]

theorem valEquiv_ne_undef (v w : Val) (h : valEquiv v w = true) (hv : v ≠ Val.vUndef) :
    w ≠ Val.vUndef := by
  intro hw
  subst hw
  cases v <;> simp [valEquiv] at h <;> exact hv rfl

theorem valEquivFields_aget (f : List (String × Val)) (g : Obj)
    (h : valEquivFields f g = true) (k : String) (v : Val) (hv : aget f k = some v) :
    ∃ w, aget g k = some w ∧ valEquiv v w = true := by
  induction f with
  | nil => exact absurd hv (by simp [aget])
  | cons kv rest ih =>
    obtain ⟨k1, v1⟩ := kv
    simp only [valEquivFields, Bool.and_eq_true] at h
    by_cases hk : k1 = k
    · subst hk
      rw [aget, if_pos rfl] at hv
      injection hv with hv1
      subst hv1
      rcases hg : aget g k1 with _ | w
      · rw [hg] at h
        exact absurd h.1 (by simp)
      · rw [hg] at h
        exact ⟨w, rfl, h.1⟩
    · rw [aget, if_neg hk] at hv
      exact ih h.2 hv

theorem jsonRenderElems_congr_of (xs ys : List Val)
    (ih : ∀ x ∈ xs, ∀ y, valEquiv x y = true → ∀ d, jsonRender x d = jsonRender y d)
    (h : valEquivElems xs ys = true) (d : Nat) :
    jsonRenderElems xs d = jsonRenderElems ys d := by
  induction xs generalizing ys with
  | nil =>
    cases ys with
    | nil => rfl
    | cons y ys => exact absurd h (by simp [valEquivElems])
  | cons x xs ihl =>
    cases ys with
    | nil => exact absurd h (by simp [valEquivElems])
    | cons y ys =>
      simp only [valEquivElems, Bool.and_eq_true] at h
      simp only [jsonRenderElems]
      rw [ih x (List.mem_cons_self x xs) y h.1 d,
        ihl ys (fun x2 hx2 y2 => ih x2 (List.mem_cons_of_mem x hx2) y2) h.2]

theorem jsonRenderObj_congr_of (f g : List (String × Val))
    (ih : ∀ v, (∃ k, (k, v) ∈ f) → ∀ w, valEquiv v w = true →
      ∀ d2, jsonRender v d2 = jsonRender w d2)
    (heq : valEquiv (.vObj f) (.vObj g) = true) (d : Nat) :
    jsonRender (.vObj f) d = jsonRender (.vObj g) d := by
  simp only [valEquiv, Bool.and_eq_true, decide_eq_true_eq] at heq
  obtain ⟨⟨⟨hnf, hng⟩, hall⟩, hfields⟩ := heq
  have hsub1 : ∀ k ∈ f.map Prod.fst, k ∈ g.map Prod.fst := by
    intro k hk
    rcases hv : aget f k with _ | v
    · exact absurd hk ((aget_eq_none_iff f k).mp hv)
    · rcases valEquivFields_aget f g hfields k v hv with ⟨w, hw, -⟩
      exact List.mem_map.mpr ⟨(k, w), aget_mem g k w hw, rfl⟩
  have hsub2 : ∀ k ∈ g.map Prod.fst, k ∈ f.map Prod.fst := by
    intro k hk
    rcases List.mem_map.mp hk with ⟨⟨k2, w⟩, hkv, hfst⟩
    rcases hfk : aget f k with _ | v
    · have hhk := List.all_eq_true.mp hall ⟨k2, w⟩ hkv
      rw [hasKey] at hhk
      rw [show k2 = k from hfst] at hhk
      rw [hfk] at hhk
      exact absurd hhk (by simp)
    · exact List.mem_map.mpr ⟨(k, v), aget_mem f k v hfk, rfl⟩
  have hfin : (f.map Prod.fst).toFinset = (g.map Prod.fst).toFinset := by
    ext k
    simp only [List.mem_toFinset]
    exact ⟨hsub1 k, hsub2 k⟩
  have hperm : (f.map Prod.fst).Perm (g.map Prod.fst) :=
    List.perm_of_nodup_nodup_toFinset_eq hnf hng hfin
  have htrans : ∀ a b c : String, decide (a ≤ b) = true → decide (b ≤ c) = true →
      decide (a ≤ c) = true := by
    intro a b c h1 h2
    simp only [decide_eq_true_eq] at h1 h2 ⊢
    exact le_trans h1 h2
  have htotal : ∀ a b : String, (decide (a ≤ b) || decide (b ≤ a)) = true := by
    intro a b
    simp only [Bool.or_eq_true, decide_eq_true_eq]
    exact le_total a b
  have hsorted : (f.map Prod.fst).mergeSort (fun a b => decide (a ≤ b))
      = (g.map Prod.fst).mergeSort (fun a b => decide (a ≤ b)) := by
    have hs1 : List.Sorted (fun a b : String => a ≤ b)
        ((f.map Prod.fst).mergeSort (fun a b => decide (a ≤ b))) :=
      List.Pairwise.imp (fun h => decide_eq_true_eq.mp h)
        (List.sorted_mergeSort htrans htotal (f.map Prod.fst))
    have hs2 : List.Sorted (fun a b : String => a ≤ b)
        ((g.map Prod.fst).mergeSort (fun a b => decide (a ≤ b))) :=
      List.Pairwise.imp (fun h => decide_eq_true_eq.mp h)
        (List.sorted_mergeSort htrans htotal (g.map Prod.fst))
    exact List.eq_of_perm_of_sorted
      ((List.mergeSort_perm _ _).trans (hperm.trans (List.mergeSort_perm _ _).symm))
      hs1 hs2
  have hmem : ∀ k ∈ (f.map Prod.fst).mergeSort (fun a b => decide (a ≤ b)),
      (match aget (jsonRenderFields f (d + 1)) k with
       | some (some s) => some (indentStr (d + 1) ++ quoteString k ++ ": " ++ s)
       | _ => none)
      = (match aget (jsonRenderFields g (d + 1)) k with
         | some (some s) => some (indentStr (d + 1) ++ quoteString k ++ ": " ++ s)
         | _ => none) := by
    intro k hk
    have hkf : k ∈ f.map Prod.fst := List.mem_mergeSort.mp hk
    rcases hv : aget f k with _ | v
    · exact absurd hkf ((aget_eq_none_iff f k).mp hv)
    · rcases valEquivFields_aget f g hfields k v hv with ⟨w, hw, hvw⟩
      rw [aget_jsonRenderFields, aget_jsonRenderFields, hv, hw]
      by_cases hund : v = Val.vUndef
      · subst hund
        rw [(valEquiv_undef_iff w).mp hvw]
      · have hwund : w ≠ Val.vUndef := valEquiv_ne_undef v w hvw hund
        rw [Option.map_some', Option.map_some', renderField_ne_undef _ _ hund,
          renderField_ne_undef _ _ hwund,
          ih v ⟨k, aget_mem f k v hv⟩ w hvw (d + 1)]
  simp only [jsonRender]
  rw [jsonRenderFields_keys, jsonRenderFields_keys, ← hsorted]
  rw [List.filterMap_congr hmem]

theorem jsonRender_congr (n : Nat) :
    ∀ a b : Val, sizeOf a ≤ n → valEquiv a b = true →
      ∀ d : Nat, jsonRender a d = jsonRender b d := by
  induction n with
  | zero =>
    intro a b hle
    exact absurd hle (by cases a <;> simp)
  | succ n ih =>
    intro a b hle heq d
    cases a with
    | vNull => cases b <;> first | rfl | exact absurd heq (by simp [valEquiv])
    | vUndef => cases b <;> first | rfl | exact absurd heq (by simp [valEquiv])
    | vBool x => cases b <;> simp_all [valEquiv]
    | vInt x => cases b <;> simp_all [valEquiv]
    | vStr x => cases b <;> simp_all [valEquiv]
    | vObj f =>
      rcases b with _ | _ | y | m | s2 | g | ys
      · exact absurd heq (by simp [valEquiv])
      · exact absurd heq (by simp [valEquiv])
      · exact absurd heq (by simp [valEquiv])
      · exact absurd heq (by simp [valEquiv])
      · exact absurd heq (by simp [valEquiv])
      · refine jsonRenderObj_congr_of f g ?_ heq d
        intro v hv w hvw d2
        rcases hv with ⟨k, hkv⟩
        have h1 := List.sizeOf_lt_of_mem hkv
        have hsz : sizeOf v ≤ n := by
          simp only [Val.vObj.sizeOf_spec] at hle
          simp only [Prod.mk.sizeOf_spec] at h1
          omega
        exact ih v w hsz hvw d2
      · exact absurd heq (by simp [valEquiv])
    | vArr xs =>
      rcases b with _ | _ | y | m | s2 | g | ys
      · exact absurd heq (by simp [valEquiv])
      · exact absurd heq (by simp [valEquiv])
      · exact absurd heq (by simp [valEquiv])
      · exact absurd heq (by simp [valEquiv])
      · exact absurd heq (by simp [valEquiv])
      · exact absurd heq (by simp [valEquiv])
      · have heq2 : valEquivElems xs ys = true := by simpa [valEquiv] using heq
        have helems : jsonRenderElems xs (d + 1) = jsonRenderElems ys (d + 1) := by
          refine jsonRenderElems_congr_of xs ys ?_ heq2 (d + 1)
          intro x hx y2 hxy d2
          have h1 := List.sizeOf_lt_of_mem hx
          have hsz : sizeOf x ≤ n := by
            simp only [Val.vArr.sizeOf_spec] at hle
            omega
          exact ih x y2 hsz hxy d2
        simp only [jsonRender, helems]

/-- C9: deterministic serialization — two structurally equal values (same
fields and values regardless of object key insertion order, with
duplicate-free keys) render to byte-identical `stableStringify` output, keys
emitted in sorted order. -/
theorem spec_c9_deterministic_serialization (a b : Val) (h : valEquiv a b = true) :
    stableStringify a = stableStringify b :=
  jsonRender_congr (sizeOf a) a b le_rfl h 0

/-- C9 witness: two key-permuted copies of the same two-field object
serialize identically, through the theorem. -/
theorem spec_c9_witness :
    stableStringify (.vObj [("b", Val.vInt 1), ("a", Val.vStr "x")])
      = stableStringify (.vObj [("a", Val.vStr "x"), ("b", Val.vInt 1)]) :=
  spec_c9_deterministic_serialization
    (.vObj [("b", Val.vInt 1), ("a", Val.vStr "x")])
    (.vObj [("a", Val.vStr "x"), ("b", Val.vInt 1)]) (by decide)
